import Mathlib

/-!
Verification of the value-interchange hub (universal `Value` model with
Avro and JSON adapters) against its specification.

The adapters under `src/value/avro.rs`, `src/value/json.rs` and the error
taxonomy under `src/error.rs` are embedded shallowly below.  The crate's
`value.rs` (the `Value` enum itself) is not part of the given sources, so
the `Value` type and the few facts about it that the adapters rely on are
modelled from the specification, as marked in the doc comments.
Machine integers are carried as `Int`/`Nat`; floating point payloads are
carried as their (opaque) bit patterns, since no claim depends on the
decimal digits a float renders to.
-/

namespace Rq

/-- Modelled from the spec (§4.1, `src/error.rs`): the closed error
taxonomy.  Library-wrapping cases are collapsed to a carried message; the
internal categories `Unimplemented`, `IllegalState`, `Format`, `Internal`
and `Message` are kept verbatim. -/
inductive Error where
  | io (msg : String)
  | avro (msg : String)
  | json (msg : String)
  | unimplemented (msg : String)
  | illegalState (msg : String)
  | format (msg : String)
  | internal (msg : String)
  | message (msg : String)
deriving DecidableEq, Repr

/-- Modelled from the spec (§3): the universal `Value` tagged union
(`value.rs` is not among the given sources).  Signed integer payloads are
`Int`, unsigned ones `Nat`; `f32`/`f64` carry their IEEE-754 bit pattern
as an opaque `Nat`. -/
inductive Value where
  | unit
  | bool (b : Bool)
  | i8 (n : Int)
  | i16 (n : Int)
  | i32 (n : Int)
  | i64 (n : Int)
  | u8 (n : Nat)
  | u16 (n : Nat)
  | u32 (n : Nat)
  | u64 (n : Nat)
  | f32 (bits : Nat)
  | f64 (bits : Nat)
  | char (c : Char)
  | string (s : String)
  | bytes (bs : List Nat)
  | sequence (xs : List Value)
  | map (kvs : List (Value × Value))

/-- The Avro value type of the `avro_rs` library, restricted to the
constructors `value_from_avro` / `value_to_avro` in `src/value/avro.rs`
match on.  `duration` carries the bit pattern of the seconds-as-f64
conversion opaquely; `decimal` and `date` payloads are irrelevant to the
code (both arms are `todo!()`). -/
inductive AvroValue where
  | null
  | boolean (b : Bool)
  | int (n : Int)
  | long (n : Int)
  | float (bits : Nat)
  | double (bits : Nat)
  | bytes (bs : List Nat)
  | fixed (sz : Nat) (bs : List Nat)
  | string (s : String)
  | enum (idx : Nat) (sym : String)
  | union (inner : AvroValue)
  | array (xs : List AvroValue)
  | map (kvs : List (String × AvroValue))
  | record (fields : List (String × AvroValue))
  | date (n : Int)
  | timeMillis (n : Int)
  | timeMicros (n : Int)
  | timestampMillis (n : Int)
  | timestampMicros (n : Int)
  | duration (secsBits : Nat)
  | decimal (unscaled : Int)
  | uuid (bytes16 : List Nat)

/-- Fuel-driven digit accumulator; the fuel only serves structural
recursion and is always sufficient at the call site. -/
def natDigitsGo : Nat → Nat → List Char → List Char
  | 0, _, acc => acc
  | fuel + 1, n, acc =>
      if n < 10 then Char.ofNat (48 + n) :: acc
      else natDigitsGo fuel (n / 10) (Char.ofNat (48 + n % 10) :: acc)

/-- Decimal digits of a natural number, as emitted by the Rust `Display`
and `itoa` decimal printers. -/
def natDigits (n : Nat) : List Char :=
  natDigitsGo (n + 1) n []

def natRepr (n : Nat) : String :=
  ⟨natDigits n⟩

/-- Decimal rendering of a signed integer (Rust `Display` for `iN`). -/
def intRepr (n : Int) : String :=
  if n < 0 then "-" ++ natRepr n.natAbs else natRepr n.toNat

/-- Modelled from the spec (§4.5): minimal round-trip decimal formatting
of a float (`ryu`/`dtoa`).  Both JSON formatters use the same such
rendering; it is represented by a stand-in on the opaque bit pattern —
no claim depends on the digits themselves. -/
def floatRepr (bits : Nat) : String :=
  natRepr bits

def hexNibble (n : Nat) : Char :=
  if n < 10 then Char.ofNat (48 + n) else Char.ofNat (87 + n)

/-- Rust `char::escape_debug`-style rendering used by the derived `Debug`
of `Value` (modelled from the spec: `value.rs` derives `Debug`). -/
def charDebugBody (c : Char) : String :=
  if c = '\\' then ("\\\\")
  else if c = '\x27' then ("\\\x27")
  else if c = '\n' then ("\\n")
  else if c = '\t' then ("\\t")
  else if c = '\x0d' then ("\\r")
  else if c.toNat < 32 then
    ("\\u\x7b" ++ ⟨[hexNibble (c.toNat / 16), hexNibble (c.toNat % 16)]⟩ ++ "\x7d")
  else String.singleton c

def stringDebugBody (c : Char) : String :=
  if c = '\\' then ("\\\\")
  else if c = '"' then ("\\\"")
  else if c = '\n' then ("\\n")
  else if c = '\t' then ("\\t")
  else if c = '\x0d' then ("\\r")
  else if c.toNat < 32 then
    ("\\u\x7b" ++ ⟨[hexNibble (c.toNat / 16), hexNibble (c.toNat % 16)]⟩ ++ "\x7d")
  else String.singleton c

mutual

/-- Modelled from the spec: the derived `Debug` rendering of `Value`
(`value.rs` is not among the given sources); used by `value_to_string`
for the `{:?}` interpolation of an illegal map key. -/
def valueDebug : Value → String
  | .unit => ("Unit")
  | .bool b => ("Bool(") ++ (if b then ("true") else ("false")) ++ (")")
  | .i8 n => ("I8(") ++ intRepr n ++ (")")
  | .i16 n => ("I16(") ++ intRepr n ++ (")")
  | .i32 n => ("I32(") ++ intRepr n ++ (")")
  | .i64 n => ("I64(") ++ intRepr n ++ (")")
  | .u8 n => ("U8(") ++ natRepr n ++ (")")
  | .u16 n => ("U16(") ++ natRepr n ++ (")")
  | .u32 n => ("U32(") ++ natRepr n ++ (")")
  | .u64 n => ("U64(") ++ natRepr n ++ (")")
  | .f32 bits => ("F32(OrderedFloat(") ++ floatRepr bits ++ ("))")
  | .f64 bits => ("F64(OrderedFloat(") ++ floatRepr bits ++ ("))")
  | .char c => ("Char(\x27") ++ charDebugBody c ++ ("\x27)")
  | .string s => ("String(\"") ++ String.join (s.toList.map stringDebugBody) ++ ("\")")
  | .bytes bs => ("Bytes([") ++ String.intercalate (", ") (bs.map natRepr) ++ ("])")
  | .sequence xs => ("Sequence([") ++ String.intercalate (", ") (valueDebugList xs) ++ ("])")
  | .map kvs => ("Map([") ++ String.intercalate (", ") (valueDebugPairs kvs) ++ ("])")

def valueDebugList : List Value → List String
  | [] => []
  | x :: xs => valueDebug x :: valueDebugList xs

def valueDebugPairs : List (Value × Value) → List String
  | [] => []
  | (k, v) :: rest =>
      (("(") ++ valueDebug k ++ (", ") ++ valueDebug v ++ (")")) :: valueDebugPairs rest

end

/-- `i64::MAX`. -/
def i64Max : Nat := 2 ^ 63 - 1

def keyErrHead : String := "Avro can only output string keys, got: "

def u64ErrHead : String := "Avro output does not support unsigned 64 bit integer: "

/-- `value_to_string` from `src/value/avro.rs` (lines 144-152): coerce a
map key to a string; `Char` is formatted as its one-character string, any
other non-`String` variant is a `Format` error naming the value. -/
def value_to_string : Value → Except Error String
  | .char c => .ok (String.singleton c)
  | .string s => .ok s
  | x => .error (.format (keyErrHead ++ valueDebug x))

mutual

/-- `value_to_avro` from `src/value/avro.rs` (lines 93-142). -/
def value_to_avro : Value → Except Error AvroValue
  | .unit => .ok .null
  | .bool b => .ok (.boolean b)
  | .i8 n => .ok (.int n)
  | .i16 n => .ok (.int n)
  | .i32 n => .ok (.int n)
  | .i64 n => .ok (.long n)
  | .u8 n => .ok (.int n)
  | .u16 n => .ok (.int n)
  | .u32 n => .ok (.long n)
  | .u64 n =>
      if n ≤ i64Max then .ok (.long n)
      else .error (.format (u64ErrHead ++ natRepr n))
  | .f32 bits => .ok (.float bits)
  | .f64 bits => .ok (.double bits)
  | .char c => .ok (.string (String.singleton c))
  | .string s => .ok (.string s)
  | .bytes bs => .ok (.bytes bs)
  | .sequence xs =>
      match value_to_avro_list xs with
      | .ok ys => .ok (.array ys)
      | .error e => .error e
  | .map kvs =>
      match value_to_avro_pairs kvs with
      | .ok fields => .ok (.record fields)
      | .error e => .error e

/-- The `Sequence` arm's `.map(value_to_avro).collect::<Result<Vec<_>>>()`:
element-wise, short-circuiting on the first failing element. -/
def value_to_avro_list : List Value → Except Error (List AvroValue)
  | [] => .ok []
  | x :: xs =>
      match value_to_avro x with
      | .error e => .error e
      | .ok a =>
          match value_to_avro_list xs with
          | .error e => .error e
          | .ok r => .ok (a :: r)

/-- The `Map` arm: per pair both `value_to_string(k)` and
`value_to_avro(v)` are computed; when both fail the value's error is the
one kept (`(Err(_), Err(e)) => Err(e)` in the source), and `collect`
short-circuits on the first failing pair. -/
def value_to_avro_pairs : List (Value × Value) → Except Error (List (String × AvroValue))
  | [] => .ok []
  | (k, v) :: rest =>
      match value_to_string k, value_to_avro v with
      | .ok k2, .ok v2 =>
          match value_to_avro_pairs rest with
          | .error e => .error e
          | .ok r => .ok ((k2, v2) :: r)
      | .ok _, .error e => .error e
      | .error e, .ok _ => .error e
      | .error _, .error e => .error e

end

/-- Modelled from the spec: `Value::from_f32` wraps the float bits
(`value.rs` is not among the given sources). -/
def valueFromF32 (bits : Nat) : Value := .f32 bits

def valueFromF64 (bits : Nat) : Value := .f64 bits

mutual

/-- `value_from_avro` from `src/value/avro.rs` (lines 46-80).  The
function in the source returns `value::Value` directly and reaches
`todo!()` — an unconditional panic — on `Date` and `Decimal`; the panic
is modelled as `none`. -/
def value_from_avro : AvroValue → Option Value
  | .null => some .unit
  | .boolean b => some (.bool b)
  | .int n => some (.i32 n)
  | .long n => some (.i64 n)
  | .float bits => some (valueFromF32 bits)
  | .double bits => some (valueFromF64 bits)
  | .bytes bs => some (.bytes bs)
  | .fixed _ bs => some (.bytes bs)
  | .string s => some (.string s)
  | .enum _ sym => some (.string sym)
  | .union inner => value_from_avro inner
  | .array xs =>
      match value_from_avro_list xs with
      | some ys => some (.sequence ys)
      | none => none
  | .map kvs =>
      match value_from_avro_entries kvs with
      | some ys => some (.map ys)
      | none => none
  | .record fields =>
      match value_from_avro_entries fields with
      | some ys => some (.map ys)
      | none => none
  | .date _ => none
  | .timeMillis n => some (.i32 n)
  | .timeMicros n => some (.i64 n)
  | .timestampMillis n => some (.i64 n)
  | .timestampMicros n => some (.i64 n)
  | .duration secsBits => some (valueFromF64 secsBits)
  | .decimal _ => none
  | .uuid bytes16 => some (.bytes bytes16)

def value_from_avro_list : List AvroValue → Option (List Value)
  | [] => some []
  | x :: xs =>
      match value_from_avro x with
      | none => none
      | some y =>
          match value_from_avro_list xs with
          | none => none
          | some r => some (y :: r)

/-- The shared `Map`/`Record` arm body: `(k, v) ↦ (String(k), from(v))`
in declared order. -/
def value_from_avro_entries : List (String × AvroValue) → Option (List (Value × Value))
  | [] => some []
  | (k, v) :: rest =>
      match value_from_avro v with
      | none => none
      | some w =>
          match value_from_avro_entries rest with
          | none => none
          | some r => some ((Value.string k, w) :: r)

end

/-- A key the Avro encoder accepts (`value_to_string` succeeds on exactly
these variants). -/
def legalKey : Value → Bool
  | .char _ => true
  | .string _ => true
  | _ => false

mutual

/-- The domain on which `value_to_avro` succeeds: every `U64` payload at
every depth is at most `i64::MAX` and every map key at every depth is a
`Char` or `String`. -/
def goodValue : Value → Bool
  | .u64 n => decide (n ≤ i64Max)
  | .sequence xs => goodList xs
  | .map kvs => goodPairs kvs
  | _ => true

def goodList : List Value → Bool
  | [] => true
  | x :: xs => goodValue x && goodList xs

def goodPairs : List (Value × Value) → Bool
  | [] => true
  | (k, v) :: rest => legalKey k && goodValue v && goodPairs rest

end

/-- The Avro `Source` (`src/value/avro.rs` lines 32-44).  Modelled from
the spec for the part outside the given sources: the underlying
`avro_rs::Reader` iterator yields a finite sequence of
decoded-item-or-error results and then `None` indefinitely; the remaining
items are the state. -/
structure AvroSource where
  items : List (Except Error AvroValue)

/-- `Source::read` for Avro: `Some(Ok(v)) ↦ Ok(Some(value_from_avro v))`
(which can panic, modelled as `none`), `Some(Err(e)) ↦ Err(e)`,
`None ↦ Ok(None)`. -/
def avroSourceRead : AvroSource → Option (Except Error (Option Value) × AvroSource)
  | ⟨[]⟩ => some (.ok none, ⟨[]⟩)
  | ⟨.ok v :: rest⟩ =>
      match value_from_avro v with
      | some w => some (.ok (some w), ⟨rest⟩)
      | none => none
  | ⟨.error e :: rest⟩ => some (.error e, ⟨rest⟩)

/-- Result and state of the `n`-th further call to `read` (0-based)
after the source is in state `s`. -/
def avroReadN (s : AvroSource) : Nat → Option (Except Error (Option Value) × AvroSource)
  | 0 => avroSourceRead s
  | n + 1 =>
      match avroSourceRead s with
      | some (_, s2) => avroReadN s2 n
      | none => none

/-- The JSON `Source` (`src/value/json.rs` lines 88-100).  Modelled from
the spec for the part outside the given sources: the underlying
`serde_json::StreamDeserializer` yields a finite sequence of
parse results and then `None` indefinitely. -/
structure JsonSource where
  items : List (Except Error Value)

/-- `Source::read` for JSON: `Some(Ok(v)) ↦ Ok(Some(v))`,
`Some(Err(e)) ↦ Err(e)`, `None ↦ Ok(None)`. -/
def jsonSourceRead : JsonSource → Except Error (Option Value) × JsonSource
  | ⟨[]⟩ => (.ok none, ⟨[]⟩)
  | ⟨.ok v :: rest⟩ => (.ok (some v), ⟨rest⟩)
  | ⟨.error e :: rest⟩ => (.error e, ⟨rest⟩)

def jsonReadN (s : JsonSource) : Nat → Except Error (Option Value) × JsonSource
  | 0 => jsonSourceRead s
  | n + 1 => jsonReadN (jsonSourceRead s).2 n

/-- Outcome of running the Avro `Sink`'s destructor. -/
inductive DropOutcome where
  | returned
  | panicked (msg : String)
deriving DecidableEq

/-- `Drop for Sink` from `src/value/avro.rs` (lines 172-182): the
destructor flushes the writer and, on a flush error, panics with the
error's display text.  The flush result of the underlying
`avro_rs::Writer` is the input. -/
def avroSinkDrop (flushResult : Except String Unit) : DropOutcome :=
  match flushResult with
  | .ok _ => .returned
  | .error e => .panicked e

/-! ### Helper lemmas -/

/-- Strong induction on `Value` via `sizeOf`, the workhorse for the
nested `Sequence`/`Map` recursion. -/
theorem Value.strongInd (P : Value → Prop)
    (h : ∀ v, (∀ w, sizeOf w < sizeOf v → P w) → P v) : ∀ v, P v := by
  have key : ∀ n v, sizeOf v < n → P v := by
    intro n
    induction n with
    | zero => intro v hv; omega
    | succ n ih => intro v _; exact h v (fun w hw => ih w (by omega))
  exact fun v => key (sizeOf v + 1) v (Nat.lt_succ_self _)

/-- Shape of every error `value_to_avro` can produce: a `Format` error
from the illegal-map-key site or from the out-of-range-`U64` site. -/
def errShape (e : Error) : Prop :=
  ∃ t, e = .format (keyErrHead ++ t) ∨ e = .format (u64ErrHead ++ t)

theorem legalKey_iff (k : Value) :
    legalKey k = true ↔ ∃ s, value_to_string k = .ok s := by
  cases k <;> simp [legalKey, value_to_string]

theorem value_to_string_char (c : Char) :
    value_to_string (.char c) = .ok (String.singleton c) := rfl

theorem value_to_string_err (k : Value) (e : Error)
    (h : value_to_string k = .error e) : e = .format (keyErrHead ++ valueDebug k) := by
  cases k <;> simp_all [value_to_string]

/-- The combined success/error characterization of `value_to_avro`,
lifted over a list of elements, assuming it for each element. -/
def ToAvroFact (v : Value) : Prop :=
  ((goodValue v = true) ↔ ∃ a, value_to_avro v = .ok a) ∧
  (∀ e, value_to_avro v = .error e → errShape e)

theorem to_avro_list_fact (l : List Value)
    (ih : ∀ x ∈ l, ToAvroFact x) :
    ((goodList l = true) ↔ ∃ ys, value_to_avro_list l = .ok ys) ∧
    (∀ e, value_to_avro_list l = .error e → errShape e) := by
  induction l with
  | nil => simp [goodList, value_to_avro_list]
  | cons x t iht =>
      obtain ⟨hx, hxe⟩ := ih x (by simp)
      obtain ⟨htg, hte⟩ := iht (fun y hy => ih y (by simp [hy]))
      constructor
      · constructor
        · intro hg
          rw [goodList] at hg
          simp only [Bool.and_eq_true] at hg
          obtain ⟨a, ha⟩ := hx.mp hg.1
          obtain ⟨ys, hys⟩ := htg.mp hg.2
          exact ⟨a :: ys, by simp [value_to_avro_list, ha, hys]⟩
        · rintro ⟨ys, hys⟩
          rw [value_to_avro_list] at hys
          cases hax : value_to_avro x with
          | error e => simp [hax] at hys
          | ok a =>
            cases hlt : value_to_avro_list t with
            | error e => simp [hax, hlt] at hys
            | ok r =>
              have g1 := hx.mpr ⟨a, hax⟩
              have g2 := htg.mpr ⟨r, hlt⟩
              simp [goodList, g1, g2]
      · intro e he
        rw [value_to_avro_list] at he
        cases hax : value_to_avro x with
        | error e2 =>
          simp [hax] at he
          exact he ▸ hxe e2 hax
        | ok a =>
          cases hlt : value_to_avro_list t with
          | error e2 =>
            simp [hax, hlt] at he
            exact he ▸ hte e2 hlt
          | ok r => simp [hax, hlt] at he

theorem to_avro_pairs_fact (l : List (Value × Value))
    (ih : ∀ p ∈ l, ToAvroFact p.2) :
    ((goodPairs l = true) ↔ ∃ ys, value_to_avro_pairs l = .ok ys) ∧
    (∀ e, value_to_avro_pairs l = .error e → errShape e) := by
  induction l with
  | nil => simp [goodPairs, value_to_avro_pairs]
  | cons p t iht =>
      obtain ⟨k, v⟩ := p
      obtain ⟨hv, hve⟩ := ih (k, v) (by simp)
      obtain ⟨htg, hte⟩ := iht (fun q hq => ih q (by simp [hq]))
      constructor
      · constructor
        · intro hg
          rw [goodPairs] at hg
          simp only [Bool.and_eq_true] at hg
          obtain ⟨⟨hk, hgv⟩, hgt⟩ := hg
          obtain ⟨s, hs⟩ := (legalKey_iff k).mp hk
          obtain ⟨a, ha⟩ := hv.mp hgv
          obtain ⟨ys, hys⟩ := htg.mp hgt
          exact ⟨(s, a) :: ys, by simp [value_to_avro_pairs, hs, ha, hys]⟩
        · rintro ⟨ys, hys⟩
          rw [value_to_avro_pairs] at hys
          cases hks : value_to_string k with
          | error e =>
            cases hav : value_to_avro v with
            | error e2 => simp [hks, hav] at hys
            | ok a => simp [hks, hav] at hys
          | ok s =>
            cases hav : value_to_avro v with
            | error e2 => simp [hks, hav] at hys
            | ok a =>
              cases hpt : value_to_avro_pairs t with
              | error e2 => simp [hks, hav, hpt] at hys
              | ok r =>
                have g1 := (legalKey_iff k).mpr ⟨s, hks⟩
                have g2 := hv.mpr ⟨a, hav⟩
                have g3 := htg.mpr ⟨r, hpt⟩
                simp [goodPairs, g1, g2, g3]
      · intro e he
        rw [value_to_avro_pairs] at he
        cases hks : value_to_string k with
        | error e2 =>
          cases hav : value_to_avro v with
          | error e3 =>
            simp [hks, hav] at he
            exact he ▸ hve e3 hav
          | ok a =>
            simp [hks, hav] at he
            exact he ▸ ⟨valueDebug k, Or.inl (value_to_string_err k e2 hks)⟩
        | ok s =>
          cases hav : value_to_avro v with
          | error e3 =>
            simp [hks, hav] at he
            exact he ▸ hve e3 hav
          | ok a =>
            cases hpt : value_to_avro_pairs t with
            | error e3 =>
              simp [hks, hav, hpt] at he
              exact he ▸ hte e3 hpt
            | ok r => simp [hks, hav, hpt] at he

theorem to_avro_fact : ∀ v, ToAvroFact v := by
  apply Value.strongInd
  intro v ih
  cases v with
  | unit => exact ⟨by simp [goodValue, value_to_avro], by simp [value_to_avro]⟩
  | bool b => exact ⟨by simp [goodValue, value_to_avro], by simp [value_to_avro]⟩
  | i8 n => exact ⟨by simp [goodValue, value_to_avro], by simp [value_to_avro]⟩
  | i16 n => exact ⟨by simp [goodValue, value_to_avro], by simp [value_to_avro]⟩
  | i32 n => exact ⟨by simp [goodValue, value_to_avro], by simp [value_to_avro]⟩
  | i64 n => exact ⟨by simp [goodValue, value_to_avro], by simp [value_to_avro]⟩
  | u8 n => exact ⟨by simp [goodValue, value_to_avro], by simp [value_to_avro]⟩
  | u16 n => exact ⟨by simp [goodValue, value_to_avro], by simp [value_to_avro]⟩
  | u32 n => exact ⟨by simp [goodValue, value_to_avro], by simp [value_to_avro]⟩
  | u64 n =>
      constructor
      · by_cases h : n ≤ i64Max <;> simp [goodValue, value_to_avro, h]
      · intro e he
        by_cases h : n ≤ i64Max
        · simp [value_to_avro, h] at he
        · simp [value_to_avro, h] at he
          exact ⟨natRepr n, Or.inr he.symm⟩
  | f32 bits => exact ⟨by simp [goodValue, value_to_avro], by simp [value_to_avro]⟩
  | f64 bits => exact ⟨by simp [goodValue, value_to_avro], by simp [value_to_avro]⟩
  | char c => exact ⟨by simp [goodValue, value_to_avro], by simp [value_to_avro]⟩
  | string s => exact ⟨by simp [goodValue, value_to_avro], by simp [value_to_avro]⟩
  | bytes bs => exact ⟨by simp [goodValue, value_to_avro], by simp [value_to_avro]⟩
  | sequence xs =>
      have sub : ∀ x ∈ xs, ToAvroFact x := by
        intro x hx
        apply ih
        have h1 := List.sizeOf_lt_of_mem hx
        have h2 : sizeOf (Value.sequence xs) = 1 + sizeOf xs := by simp
        omega
      obtain ⟨hg, he⟩ := to_avro_list_fact xs sub
      constructor
      · rw [show goodValue (.sequence xs) = goodList xs from rfl]
        rw [hg]
        constructor
        · rintro ⟨ys, hys⟩
          exact ⟨.array ys, by simp [value_to_avro, hys]⟩
        · rintro ⟨a, ha⟩
          rw [value_to_avro] at ha
          cases hl : value_to_avro_list xs with
          | error e => simp [hl] at ha
          | ok ys => exact ⟨ys, rfl⟩
      · intro e h
        rw [value_to_avro] at h
        cases hl : value_to_avro_list xs with
        | error e2 =>
          simp [hl] at h
          exact h ▸ he e2 hl
        | ok ys => simp [hl] at h
  | map kvs =>
      have sub : ∀ p ∈ kvs, ToAvroFact p.2 := by
        intro p hp
        apply ih
        have h1 := List.sizeOf_lt_of_mem hp
        have h2 : sizeOf (Value.map kvs) = 1 + sizeOf kvs := by simp
        have h3 : sizeOf p.2 < sizeOf p := by
          obtain ⟨a, b⟩ := p
          simp
        omega
      obtain ⟨hg, he⟩ := to_avro_pairs_fact kvs sub
      constructor
      · rw [show goodValue (.map kvs) = goodPairs kvs from rfl]
        rw [hg]
        constructor
        · rintro ⟨ys, hys⟩
          exact ⟨.record ys, by simp [value_to_avro, hys]⟩
        · rintro ⟨a, ha⟩
          rw [value_to_avro] at ha
          cases hl : value_to_avro_pairs kvs with
          | error e => simp [hl] at ha
          | ok ys => exact ⟨ys, rfl⟩
      · intro e h
        rw [value_to_avro] at h
        cases hl : value_to_avro_pairs kvs with
        | error e2 =>
          simp [hl] at h
          exact h ▸ he e2 hl
        | ok ys => simp [hl] at h

theorem goodPairs_all_legal (l : List (Value × Value)) (h : goodPairs l = true) :
    ∀ p ∈ l, legalKey p.1 = true := by
  induction l with
  | nil => simp
  | cons p t ih =>
      obtain ⟨k, v⟩ := p
      rw [goodPairs] at h
      simp only [Bool.and_eq_true] at h
      intro q hq
      rcases List.mem_cons.mp hq with hq | hq
      · subst hq; exact h.1.1
      · exact ih h.2 q hq

theorem value_to_string_illegal (k : Value) (h : legalKey k = false) :
    value_to_string k = .error (.format (keyErrHead ++ valueDebug k)) := by
  cases k <;> simp_all [legalKey, value_to_string]

theorem from_avro_list_forall2 (xs : List AvroValue) (ys : List Value) :
    value_from_avro_list xs = some ys ↔
      List.Forall₂ (fun a w => value_from_avro a = some w) xs ys := by
  induction xs generalizing ys with
  | nil =>
      rw [value_from_avro_list]
      constructor
      · intro h
        injection h with h
        rw [← h]
        exact List.Forall₂.nil
      · intro h
        cases h
        rfl
  | cons x t ih =>
      rw [value_from_avro_list]
      cases h : value_from_avro x with
      | none =>
          constructor
          · intro hc
            cases hc
          · intro hf
            cases hf with
            | cons hr _ =>
                rw [h] at hr
                cases hr
      | some y =>
          cases ht : value_from_avro_list t with
          | none =>
              constructor
              · intro hc
                cases hc
              · intro hf
                cases hf with
                | cons _ hrest =>
                    have h2 := (ih _).mpr hrest
                    rw [ht] at h2
                    cases h2
          | some r =>
              constructor
              · intro hc
                injection hc with hc
                rw [← hc]
                exact List.Forall₂.cons h ((ih r).mp ht)
              · intro hf
                cases hf with
                | @cons _ b _ l2 hr hrest =>
                    rw [h] at hr
                    injection hr with hr
                    have h2 := (ih l2).mpr hrest
                    rw [ht] at h2
                    injection h2 with h2
                    rw [hr, h2]

theorem from_avro_entries_forall2 (kvs : List (String × AvroValue))
    (ys : List (Value × Value)) :
    value_from_avro_entries kvs = some ys ↔
      List.Forall₂ (fun p q => q.1 = Value.string p.1 ∧ value_from_avro p.2 = some q.2)
        kvs ys := by
  induction kvs generalizing ys with
  | nil =>
      rw [value_from_avro_entries]
      constructor
      · intro h
        injection h with h
        rw [← h]
        exact List.Forall₂.nil
      · intro h
        cases h
        rfl
  | cons p t ih =>
      obtain ⟨k, v⟩ := p
      rw [value_from_avro_entries]
      cases h : value_from_avro v with
      | none =>
          constructor
          · intro hc
            cases hc
          · intro hf
            cases hf with
            | cons hq _ =>
                have hr := hq.2
                rw [h] at hr
                cases hr
      | some w =>
          cases ht : value_from_avro_entries t with
          | none =>
              constructor
              · intro hc
                cases hc
              · intro hf
                cases hf with
                | cons _ hrest =>
                    have h2 := (ih _).mpr hrest
                    rw [ht] at h2
                    cases h2
          | some r =>
              constructor
              · intro hc
                injection hc with hc
                rw [← hc]
                exact List.Forall₂.cons ⟨rfl, h⟩ ((ih r).mp ht)
              · intro hf
                cases hf with
                | @cons _ q _ l2 hq hrest =>
                    obtain ⟨q1, q2⟩ := q
                    obtain ⟨hq1, hq2⟩ := hq
                    rw [h] at hq2
                    injection hq2 with hq2
                    have h2 := (ih l2).mpr hrest
                    rw [ht] at h2
                    injection h2 with h2
                    simp only at hq1 hq2
                    rw [hq1, hq2, h2]

/-! ### Claim theorems -/

/-- C1: `value_to_avro` widens integers to the matching signed Avro
category — `I8/I16/I32 → Int`, `I64 → Long`, `U8/U16 → Int`,
`U32 → Long` — and `U64(v)` yields `Long(v)` when `v ≤ i64::MAX` but a
`Format` error when `v > i64::MAX`; in particular `U64(u64::MAX)` fails
with a `Format` error and `U64(42)` succeeds as `Long(42)`. -/
theorem c1_integer_widening :
    (∀ n : Int, value_to_avro (.i8 n) = .ok (.int n)) ∧
    (∀ n : Int, value_to_avro (.i16 n) = .ok (.int n)) ∧
    (∀ n : Int, value_to_avro (.i32 n) = .ok (.int n)) ∧
    (∀ n : Int, value_to_avro (.i64 n) = .ok (.long n)) ∧
    (∀ n : Nat, value_to_avro (.u8 n) = .ok (.int n)) ∧
    (∀ n : Nat, value_to_avro (.u16 n) = .ok (.int n)) ∧
    (∀ n : Nat, value_to_avro (.u32 n) = .ok (.long n)) ∧
    (∀ n : Nat, n ≤ i64Max → value_to_avro (.u64 n) = .ok (.long n)) ∧
    (∀ n : Nat, i64Max < n →
      value_to_avro (.u64 n) = .error (.format (u64ErrHead ++ natRepr n))) ∧
    value_to_avro (.u64 (2 ^ 64 - 1)) =
      .error (.format (u64ErrHead ++ natRepr (2 ^ 64 - 1))) ∧
    value_to_avro (.u64 42) = .ok (.long 42) := by
  refine ⟨fun n => rfl, fun n => rfl, fun n => rfl, fun n => rfl, fun n => rfl,
    fun n => rfl, fun n => rfl, ?_, ?_, rfl, rfl⟩
  · intro n h
    simp [value_to_avro, h]
  · intro n h
    simp [value_to_avro, Nat.not_le.mpr h]

theorem c1_integer_widening_witness :
    (42 ≤ i64Max ∧ value_to_avro (.u64 42) = .ok (.long 42)) ∧
    (i64Max < 2 ^ 64 - 1 ∧
      value_to_avro (.u64 (2 ^ 64 - 1)) =
        .error (.format (u64ErrHead ++ natRepr (2 ^ 64 - 1)))) :=
  ⟨⟨by decide, c1_integer_widening.2.2.2.2.2.2.2.1 42 (by decide)⟩,
   ⟨by decide, c1_integer_widening.2.2.2.2.2.2.2.2.1 (2 ^ 64 - 1) (by decide)⟩⟩

/-- C2: both `Source` implementations, once `read` has returned
`Ok(None)`, keep returning `Ok(None)` on every subsequent call — they
never resume producing values and never start erroring (the Avro source
cannot even panic after end-of-stream). -/
theorem c2_eof_idempotent :
    (∀ (s s2 : AvroSource), avroSourceRead s = some (.ok none, s2) →
      ∀ n, avroReadN s2 n = some (.ok none, s2)) ∧
    (∀ (s s2 : JsonSource), jsonSourceRead s = (.ok none, s2) →
      ∀ n, jsonReadN s2 n = (.ok none, s2)) := by
  have avroNil : ∀ n, avroReadN ⟨[]⟩ n = some (.ok none, (⟨[]⟩ : AvroSource)) := by
    intro n
    induction n with
    | zero => rfl
    | succ k ih => rw [avroReadN, avroSourceRead]; exact ih
  have jsonNil : ∀ n, jsonReadN ⟨[]⟩ n = (.ok none, (⟨[]⟩ : JsonSource)) := by
    intro n
    induction n with
    | zero => rfl
    | succ k ih => rw [jsonReadN]; exact ih
  constructor
  · rintro ⟨items⟩ s2 h n
    cases items with
    | nil =>
        rw [avroSourceRead] at h
        obtain ⟨rfl⟩ : s2 = ⟨[]⟩ := by
          cases h
          rfl
        exact avroNil n
    | cons x rest =>
        cases x with
        | ok v =>
            rw [avroSourceRead] at h
            cases hv : value_from_avro v <;> simp [hv] at h
        | error e =>
            rw [avroSourceRead] at h
            simp at h
  · rintro ⟨items⟩ s2 h n
    cases items with
    | nil =>
        rw [jsonSourceRead] at h
        obtain ⟨rfl⟩ : s2 = ⟨[]⟩ := by
          cases h
          rfl
        exact jsonNil n
    | cons x rest =>
        cases x with
        | ok v => rw [jsonSourceRead] at h; simp at h
        | error e => rw [jsonSourceRead] at h; simp at h

theorem c2_eof_idempotent_witness :
    avroReadN ⟨[]⟩ 5 = some (.ok none, (⟨[]⟩ : AvroSource)) ∧
    jsonReadN ⟨[]⟩ 5 = (.ok none, (⟨[]⟩ : JsonSource)) :=
  ⟨c2_eof_idempotent.1 ⟨[]⟩ ⟨[]⟩ rfl 5, c2_eof_idempotent.2 ⟨[]⟩ ⟨[]⟩ rfl 5⟩

/-- C3 (code bug): the claim requires `Date`/`Decimal` to decode to an
explicit `Unimplemented` error, but `value_from_avro` in the source
returns `value::Value` directly and reaches `todo!()` — an unconditional
abort, modelled as `none` — on both recognized tags. -/
theorem c3_date_decimal_abort :
    value_from_avro (.date 0) = none ∧ value_from_avro (.decimal 0) = none :=
  ⟨rfl, rfl⟩

/-- C4 (code bug): the Avro `Sink` destructor does flush the writer, but
a flush failure makes it `panic!` — an unconditional abort — instead of
surfacing a recoverable error to the pipeline owner. -/
theorem c4_drop_flush_panics :
    avroSinkDrop (.ok ()) = .returned ∧
    avroSinkDrop (.error ("flush failed")) = .panicked ("flush failed") :=
  ⟨rfl, rfl⟩

/-- C6: `value_from_avro` recursively unwraps every `Union` to its inner
branch (a `Union` wrapping `Long(7)` decodes to `I64(7)`), maps `Array`
to `Sequence` element-wise, maps `Map` to a `Value::Map` whose keys are
wrapped as `Value::String`, and maps `Record` to a `Value::Map` of
(field name, field value) pairs in declared order. -/
theorem c6_from_avro_structure :
    (∀ a, value_from_avro (.union a) = value_from_avro a) ∧
    value_from_avro (.union (.long 7)) = some (.i64 7) ∧
    (∀ xs ys, value_from_avro (.array xs) = some (.sequence ys) ↔
      List.Forall₂ (fun a w => value_from_avro a = some w) xs ys) ∧
    (∀ kvs ys, value_from_avro (.map kvs) = some (.map ys) ↔
      List.Forall₂
        (fun p q => q.1 = Value.string p.1 ∧ value_from_avro p.2 = some q.2) kvs ys) ∧
    (∀ fields ys, value_from_avro (.record fields) = some (.map ys) ↔
      List.Forall₂
        (fun p q => q.1 = Value.string p.1 ∧ value_from_avro p.2 = some q.2)
        fields ys) := by
  have harr : ∀ xs ys, value_from_avro (.array xs) = some (.sequence ys) ↔
      value_from_avro_list xs = some ys := by
    intro xs ys
    rw [value_from_avro]
    cases h : value_from_avro_list xs with
    | none => simp
    | some r =>
        constructor
        · intro hc
          injection hc with hc
          injection hc with hc
          rw [hc]
        · intro hc
          injection hc with hc
          rw [hc]
  have hmap : ∀ kvs ys, value_from_avro (.map kvs) = some (.map ys) ↔
      value_from_avro_entries kvs = some ys := by
    intro kvs ys
    rw [value_from_avro]
    cases h : value_from_avro_entries kvs with
    | none => simp
    | some r =>
        constructor
        · intro hc
          injection hc with hc
          injection hc with hc
          rw [hc]
        · intro hc
          injection hc with hc
          rw [hc]
  have hrec : ∀ fields ys, value_from_avro (.record fields) = some (.map ys) ↔
      value_from_avro_entries fields = some ys := by
    intro fields ys
    rw [value_from_avro]
    cases h : value_from_avro_entries fields with
    | none => simp
    | some r =>
        constructor
        · intro hc
          injection hc with hc
          injection hc with hc
          rw [hc]
        · intro hc
          injection hc with hc
          rw [hc]
  exact ⟨fun a => rfl, rfl,
    fun xs ys => (harr xs ys).trans (from_avro_list_forall2 xs ys),
    fun kvs ys => (hmap kvs ys).trans (from_avro_entries_forall2 kvs ys),
    fun fields ys => (hrec fields ys).trans (from_avro_entries_forall2 fields ys)⟩

/-- C10: `value_to_avro` is total on the model and succeeds exactly on
values whose `U64` payloads (at every depth) fit `i64::MAX` and whose map
keys (at every depth) are `Char` or `String`; every error it returns is a
`Format` error from one of those two sites. -/
theorem c10_to_avro_domain :
    ∀ v, ((goodValue v = true) ↔ ∃ a, value_to_avro v = .ok a) ∧
      (∀ e, value_to_avro v = .error e → errShape e) :=
  fun v => to_avro_fact v

theorem c10_to_avro_domain_witness :
    goodValue (.u64 42) = true ∧ ∃ a, value_to_avro (.u64 42) = .ok a :=
  ⟨by decide, (c10_to_avro_domain (.u64 42)).1.mp (by decide)⟩

/-- C5 counterexample: the map `{I32(1): U64(u64::MAX)}` contains a key
of an illegal variant, and its encoding does fail with a `Format` error —
but the message is the `U64` range message, not the message naming the
offending key (`(Err(_), Err(e)) => Err(e)` in the source keeps the
value's error when both key and value fail). -/
theorem c5_counterexample :
    value_to_avro (.map [(.i32 1, .u64 (2 ^ 64 - 1))]) =
      .error (.format (u64ErrHead ++ natRepr (2 ^ 64 - 1))) ∧
    u64ErrHead ++ natRepr (2 ^ 64 - 1) ≠ keyErrHead ++ valueDebug (.i32 1) :=
  ⟨rfl, by decide⟩

/-- C5 (amended): encoding a `Value::Map` to Avro produces a `Record` of
field/value pairs with every key coerced to a string; `Char` and `String`
keys are the legal ones (`Char` as its one-character string); a map
containing a key of any other variant always fails with a `Format` error,
and the message names the first offending key whenever every value in the
map itself encodes successfully (when some value fails first, that
value's own error is reported instead). -/
theorem c5_map_key_coercion :
    (∀ c, value_to_string (.char c) = .ok (String.singleton c)) ∧
    (∀ s, value_to_string (.string s) = .ok s) ∧
    (∀ k, legalKey k = true ↔ ∃ s, value_to_string k = .ok s) ∧
    (∀ kvs, value_to_avro (.map kvs) =
      (value_to_avro_pairs kvs).map AvroValue.record) ∧
    (∀ kvs, (∃ p ∈ kvs, legalKey p.1 = false) →
      ∃ msg, value_to_avro (.map kvs) = .error (.format msg)) ∧
    (∀ kvs k v, (∀ p ∈ kvs, ∃ a, value_to_avro p.2 = .ok a) →
      kvs.find? (fun p => ! legalKey p.1) = some (k, v) →
      value_to_avro (.map kvs) = .error (.format (keyErrHead ++ valueDebug k))) := by
  have unfoldMap : ∀ kvs, value_to_avro (.map kvs) =
      (value_to_avro_pairs kvs).map AvroValue.record := by
    intro kvs
    rw [value_to_avro]
    cases h : value_to_avro_pairs kvs <;> simp [Except.map]
  refine ⟨fun c => rfl, fun s => rfl, legalKey_iff, unfoldMap, ?_, ?_⟩
  · rintro kvs ⟨p, hp, hbad⟩
    have hgood : goodValue (.map kvs) = false := by
      rw [show goodValue (.map kvs) = goodPairs kvs from rfl]
      cases hgp : goodPairs kvs with
      | false => rfl
      | true =>
          have := goodPairs_all_legal kvs hgp p hp
          rw [this] at hbad
          cases hbad
    obtain ⟨hiff, herr⟩ := to_avro_fact (.map kvs)
    cases hres : value_to_avro (.map kvs) with
    | ok a =>
        have := hiff.mpr ⟨a, hres⟩
        rw [this] at hgood
        cases hgood
    | error e =>
        obtain ⟨t, ht | ht⟩ := herr e hres
        · exact ⟨keyErrHead ++ t, by rw [ht]⟩
        · exact ⟨u64ErrHead ++ t, by rw [ht]⟩
  · intro kvs
    induction kvs with
    | nil => intro k v _ hfind; simp at hfind
    | cons p t ih =>
        obtain ⟨k0, v0⟩ := p
        intro k v hvals hfind
        obtain ⟨a0, ha0⟩ := hvals (k0, v0) (by simp)
        simp only at ha0
        rw [unfoldMap, value_to_avro_pairs]
        cases hk : legalKey k0 with
        | false =>
            have hstep : List.find? (fun p => ! legalKey p.1) ((k0, v0) :: t) =
                some (k0, v0) := List.find?_cons_of_pos _ (by simp [hk])
            rw [hstep] at hfind
            injection hfind with hfind
            injection hfind with h1 h2
            subst h1
            subst h2
            rw [value_to_string_illegal k0 hk, ha0]
            simp [Except.map]
        | true =>
            have hstep : List.find? (fun p => ! legalKey p.1) ((k0, v0) :: t) =
                List.find? (fun p => ! legalKey p.1) t :=
              List.find?_cons_of_neg _ (by simp [hk])
            rw [hstep] at hfind
            obtain ⟨s0, hs0⟩ := (legalKey_iff k0).mp hk
            rw [hs0, ha0]
            have hrec := ih k v (fun q hq => hvals q (List.mem_cons_of_mem _ hq)) hfind
            rw [unfoldMap] at hrec
            cases hpt : value_to_avro_pairs t with
            | ok r =>
                rw [hpt] at hrec
                simp [Except.map] at hrec
            | error e2 =>
                rw [hpt] at hrec
                simp [Except.map] at hrec
                simp [Except.map, hrec]

theorem c5_map_key_coercion_witness :
    value_to_avro (.map [(.i32 1, .unit)]) =
      .error (.format ("Avro can only output string keys, got: I32(1)")) := by
  have h := c5_map_key_coercion.2.2.2.2.2 [(.i32 1, .unit)] (.i32 1) .unit
    (by rintro p hp; simp at hp; rw [hp]; exact ⟨.null, rfl⟩)
    rfl
  rw [h]
  rfl

/-! ### JSON adapter -/

/-- The serde-json escaping decision (default configuration): quote,
backslash, and every control character below 0x20 are escaped. -/
def needsEscape (c : Char) : Bool :=
  c = '"' || c = '\\' || decide (c.toNat < 32)

/-- The escape text for a character that needs escaping: the dedicated
two-character escapes where they exist, `\u00XX` lowercase hex
otherwise. -/
def escText (c : Char) : String :=
  if c = '"' then ("\\\"")
  else if c = '\\' then ("\\\\")
  else if c.toNat = 8 then ("\\b")
  else if c.toNat = 9 then ("\\t")
  else if c.toNat = 10 then ("\\n")
  else if c.toNat = 12 then ("\\f")
  else if c.toNat = 13 then ("\\r")
  else ("\\u00" ++ ⟨[hexNibble (c.toNat / 16), hexNibble (c.toNat % 16)]⟩)

/-- A string body split the way `format_escaped_str` walks it: maximal
unescaped fragments alternating with single escapes (`true` marks an
escape piece). -/
def strPieces : List Char → List (Bool × String)
  | [] => []
  | c :: rest =>
      if needsEscape c then (true, escText c) :: strPieces rest
      else
        match strPieces rest with
        | (false, s) :: more => (false, String.singleton c ++ s) :: more
        | other => (false, String.singleton c) :: other

/-- One piece of formatter output: either unstyled text or text wrapped
in an `ansi_term` style (rendered as `ESC [ code m … ESC [ 0 m`). -/
inductive Tok where
  | raw (txt : String)
  | sty (code : String) (txt : String)

def tokTxt : Tok → String
  | .raw t => t
  | .sty _ t => t

def renderTok : Tok → String
  | .raw t => t
  | .sty code t => ("\x1b[") ++ code ++ ("m") ++ t ++ ("\x1b[0m")

def renderChars : List Tok → List Char
  | [] => []
  | t :: rest => (renderTok t).data ++ renderChars rest

def flatChars : List Tok → List Char
  | [] => []
  | t :: rest => (tokTxt t).data ++ flatChars rest

def render (toks : List Tok) : String := ⟨renderChars toks⟩

/-- The callback surface of `serde_json::ser::Formatter`, restricted to
what the three sinks use; each callback threads a formatter state and
emits output. -/
structure Formatter (σ : Type) where
  writeNull : σ → σ × List Tok
  writeBool : Bool → σ → σ × List Tok
  writeInt : Int → σ → σ × List Tok
  writeNat : Nat → σ → σ × List Tok
  writeFloat : Nat → σ → σ × List Tok
  beginString : σ → σ × List Tok
  endString : σ → σ × List Tok
  writeFragment : String → σ → σ × List Tok
  writeEscape : String → σ → σ × List Tok
  beginArray : σ → σ × List Tok
  endArray : σ → σ × List Tok
  beginArrayValue : Bool → σ → σ × List Tok
  endArrayValue : σ → σ × List Tok
  beginObject : σ → σ × List Tok
  endObject : σ → σ × List Tok
  beginObjectKey : Bool → σ → σ × List Tok
  endObjectKey : σ → σ × List Tok
  beginObjectValue : σ → σ × List Tok
  endObjectValue : σ → σ × List Tok

def serPieces (F : Formatter σ) : List (Bool × String) → σ → σ × List Tok
  | [], s => (s, [])
  | (isEsc, txt) :: rest, s =>
      let r1 := if isEsc then F.writeEscape txt s else F.writeFragment txt s
      let r2 := serPieces F rest r1.1
      (r2.1, r1.2 ++ r2.2)

/-- `format_escaped_str`: opening quote, fragments/escapes, closing
quote. -/
def serStr (F : Formatter σ) (str : String) (s : σ) : σ × List Tok :=
  let b := F.beginString s
  let m := serPieces F (strPieces str.data) b.1
  let e := F.endString m.1
  (e.1, b.2 ++ m.2 ++ e.2)

def serQuotedInt (F : Formatter σ) (n : Int) (s : σ) : σ × List Tok :=
  let b := F.beginString s
  let m := F.writeInt n b.1
  let e := F.endString m.1
  (e.1, b.2 ++ m.2 ++ e.2)

def serQuotedNat (F : Formatter σ) (n : Nat) (s : σ) : σ × List Tok :=
  let b := F.beginString s
  let m := F.writeNat n b.1
  let e := F.endString m.1
  (e.1, b.2 ++ m.2 ++ e.2)

/-- Modelled from the spec and the serde-json `MapKeySerializer`
(`value.rs` is not among the given sources): `String` and `Char` keys
become plain strings, integer keys their quoted decimal rendering, and
every other variant is rejected. -/
def serKey (F : Formatter σ) : Value → σ → Except Error (σ × List Tok)
  | .string str, s => .ok (serStr F str s)
  | .char c, s => .ok (serStr F (String.singleton c) s)
  | .i8 n, s => .ok (serQuotedInt F n s)
  | .i16 n, s => .ok (serQuotedInt F n s)
  | .i32 n, s => .ok (serQuotedInt F n s)
  | .i64 n, s => .ok (serQuotedInt F n s)
  | .u8 n, s => .ok (serQuotedNat F n s)
  | .u16 n, s => .ok (serQuotedNat F n s)
  | .u32 n, s => .ok (serQuotedNat F n s)
  | .u64 n, s => .ok (serQuotedNat F n s)
  | _, _ => .error (.json ("key must be a string"))

def serBytesLoop (F : Formatter σ) : List Nat → Bool → σ → σ × List Tok
  | [], _, s => (s, [])
  | b :: rest, first, s =>
      let a1 := F.beginArrayValue first s
      let a2 := F.writeNat b a1.1
      let a3 := F.endArrayValue a2.1
      let a4 := serBytesLoop F rest false a3.1
      (a4.1, a1.2 ++ a2.2 ++ a3.2 ++ a4.2)

/-- `serialize_bytes`: an array of byte values. -/
def serBytes (F : Formatter σ) (bs : List Nat) (s : σ) : σ × List Tok :=
  let b := F.beginArray s
  let m := serBytesLoop F bs true b.1
  let e := F.endArray m.1
  (e.1, b.2 ++ m.2 ++ e.2)

mutual

/-- The structural serialization walk of `serde_json::ser::Serializer`
driving a formatter, applied to a `Value` (the `Serialize` impl of
`Value` is modelled from the spec, `value.rs` being outside the given
sources). -/
def serValue (F : Formatter σ) : Value → σ → Except Error (σ × List Tok)
  | .unit, s => .ok (F.writeNull s)
  | .bool b, s => .ok (F.writeBool b s)
  | .i8 n, s => .ok (F.writeInt n s)
  | .i16 n, s => .ok (F.writeInt n s)
  | .i32 n, s => .ok (F.writeInt n s)
  | .i64 n, s => .ok (F.writeInt n s)
  | .u8 n, s => .ok (F.writeNat n s)
  | .u16 n, s => .ok (F.writeNat n s)
  | .u32 n, s => .ok (F.writeNat n s)
  | .u64 n, s => .ok (F.writeNat n s)
  | .f32 bits, s => .ok (F.writeFloat bits s)
  | .f64 bits, s => .ok (F.writeFloat bits s)
  | .char c, s => .ok (serStr F (String.singleton c) s)
  | .string str, s => .ok (serStr F str s)
  | .bytes bs, s => .ok (serBytes F bs s)
  | .sequence xs, s =>
      let b := F.beginArray s
      match serSeq F xs true b.1 with
      | .error e => .error e
      | .ok (s2, t2) =>
          let e2 := F.endArray s2
          .ok (e2.1, b.2 ++ t2 ++ e2.2)
  | .map kvs, s =>
      let b := F.beginObject s
      match serEntries F kvs true b.1 with
      | .error e => .error e
      | .ok (s2, t2) =>
          let e2 := F.endObject s2
          .ok (e2.1, b.2 ++ t2 ++ e2.2)

/-- Array elements: `begin_array_value(first)`, element,
`end_array_value`, then the rest with `first = false`. -/
def serSeq (F : Formatter σ) : List Value → Bool → σ → Except Error (σ × List Tok)
  | [], _, s => .ok (s, [])
  | x :: rest, first, s =>
      let a1 := F.beginArrayValue first s
      match serValue F x a1.1 with
      | .error e => .error e
      | .ok (s2, t2) =>
          let a3 := F.endArrayValue s2
          match serSeq F rest false a3.1 with
          | .error e => .error e
          | .ok (s4, t4) => .ok (s4, a1.2 ++ t2 ++ a3.2 ++ t4)

/-- Object entries: `begin_object_key(first)`, key, `end_object_key`,
`begin_object_value`, value, `end_object_value`, then the rest. -/
def serEntries (F : Formatter σ) : List (Value × Value) → Bool → σ → Except Error (σ × List Tok)
  | [], _, s => .ok (s, [])
  | (k, v) :: rest, first, s =>
      let a1 := F.beginObjectKey first s
      match serKey F k a1.1 with
      | .error e => .error e
      | .ok (s2, t2) =>
          let a3 := F.endObjectKey s2
          let a4 := F.beginObjectValue a3.1
          match serValue F v a4.1 with
          | .error e => .error e
          | .ok (s5, t5) =>
              let a6 := F.endObjectValue s5
              match serEntries F rest false a6.1 with
              | .error e => .error e
              | .ok (s7, t7) =>
                  .ok (s7, a1.2 ++ t2 ++ a3.2 ++ a4.2 ++ t5 ++ a6.2 ++ t7)

end

/-- Modelled from the spec: the `CompactFormatter` of serde-json — no
insignificant whitespace, plain punctuation. -/
def compactF : Formatter Unit where
  writeNull := fun s => (s, [.raw ("null")])
  writeBool := fun b s => (s, [.raw (if b then ("true") else ("false"))])
  writeInt := fun n s => (s, [.raw (intRepr n)])
  writeNat := fun n s => (s, [.raw (natRepr n)])
  writeFloat := fun bits s => (s, [.raw (floatRepr bits)])
  beginString := fun s => (s, [.raw ("\"")])
  endString := fun s => (s, [.raw ("\"")])
  writeFragment := fun t s => (s, [.raw t])
  writeEscape := fun t s => (s, [.raw t])
  beginArray := fun s => (s, [.raw ("[")])
  endArray := fun s => (s, [.raw ("]")])
  beginArrayValue := fun first s => (s, if first then [] else [.raw (",")])
  endArrayValue := fun s => (s, [])
  beginObject := fun s => (s, [.raw ("\x7b")])
  endObject := fun s => (s, [.raw ("\x7d")])
  beginObjectKey := fun first s => (s, if first then [] else [.raw (",")])
  endObjectKey := fun s => (s, [])
  beginObjectValue := fun s => (s, [.raw (":")])
  endObjectValue := fun s => (s, [])

/-- State of the indented and readable formatters. -/
structure PState where
  indent : Nat
  hasValue : Bool

def indentStr (n : Nat) : String := ⟨List.replicate (2 * n) ' '⟩

/-- Modelled from the spec: the `PrettyFormatter` of serde-json with
two-space indentation. -/
def prettyF : Formatter PState where
  writeNull := fun s => (s, [.raw ("null")])
  writeBool := fun b s => (s, [.raw (if b then ("true") else ("false"))])
  writeInt := fun n s => (s, [.raw (intRepr n)])
  writeNat := fun n s => (s, [.raw (natRepr n)])
  writeFloat := fun bits s => (s, [.raw (floatRepr bits)])
  beginString := fun s => (s, [.raw ("\"")])
  endString := fun s => (s, [.raw ("\"")])
  writeFragment := fun t s => (s, [.raw t])
  writeEscape := fun t s => (s, [.raw t])
  beginArray := fun s => (⟨s.indent + 1, false⟩, [.raw ("[")])
  endArray := fun s =>
      (⟨s.indent - 1, s.hasValue⟩,
       (if s.hasValue then [Tok.raw (("\n") ++ indentStr (s.indent - 1))] else []) ++
         [.raw ("]")])
  beginArrayValue := fun first s =>
      (s, [.raw ((if first then ("\n") else (",\n")) ++ indentStr s.indent)])
  endArrayValue := fun s => (⟨s.indent, true⟩, [])
  beginObject := fun s => (⟨s.indent + 1, false⟩, [.raw ("\x7b")])
  endObject := fun s =>
      (⟨s.indent - 1, s.hasValue⟩,
       (if s.hasValue then [Tok.raw (("\n") ++ indentStr (s.indent - 1))] else []) ++
         [.raw ("\x7d")])
  beginObjectKey := fun first s =>
      (s, [.raw ((if first then ("\n") else (",\n")) ++ indentStr s.indent)])
  endObjectKey := fun s => (s, [])
  beginObjectValue := fun s => (s, [.raw (": ")])
  endObjectValue := fun s => (⟨s.indent, true⟩, [])

/-- State of the `ReadableFormatter` from `src/value/json.rs`:
`current_indent`, `is_in_object_key`, `has_value` (the `dtoa`/`itoa`
buffers carry no semantic state). -/
structure RState where
  indent : Nat
  inKey : Bool
  hasValue : Bool

def nullCode : String := "1;2;3;30"
def trueCode : String := "1;3;32"
def falseCode : String := "1;3;31"
def numberCode : String := "34"
def quoteCode : String := "2;32"
def charCode : String := "32"
def escCode : String := "2;32"
def keyQuoteCode : String := "2;34"
def keyCharCode : String := "34"
def keyEscCode : String := "2;34"
def boldCode : String := "1"

/-! The callbacks of the `ReadableFormatter` from `src/value/json.rs`
(lines 190-524), one definition per trait method: every text piece is
painted with its style, arrays/objects track indent depth and the
has-emitted-child flag, object keys flip the in-key flag. -/

def rWriteNull (s : RState) : RState × List Tok :=
  (s, [.sty nullCode ("null")])

def rWriteBool (b : Bool) (s : RState) : RState × List Tok :=
  (s, [Tok.sty (if b then trueCode else falseCode) (if b then ("true") else ("false"))])

def rWriteInt (n : Int) (s : RState) : RState × List Tok :=
  (s, [.sty numberCode (intRepr n)])

def rWriteNat (n : Nat) (s : RState) : RState × List Tok :=
  (s, [.sty numberCode (natRepr n)])

def rWriteFloat (bits : Nat) (s : RState) : RState × List Tok :=
  (s, [.sty numberCode (floatRepr bits)])

def rBeginString (s : RState) : RState × List Tok :=
  (s, [.sty (if s.inKey then keyQuoteCode else quoteCode) ("\"")])

def rEndString (s : RState) : RState × List Tok :=
  (s, [.sty (if s.inKey then keyQuoteCode else quoteCode) ("\"")])

def rWriteFragment (t : String) (s : RState) : RState × List Tok :=
  (s, [.sty (if s.inKey then keyCharCode else charCode) t])

def rWriteEscape (t : String) (s : RState) : RState × List Tok :=
  (s, [.sty (if s.inKey then keyEscCode else escCode) t])

def rBeginArray (s : RState) : RState × List Tok :=
  (⟨s.indent + 1, s.inKey, false⟩, [.sty boldCode ("[")])

def rEndArray (s : RState) : RState × List Tok :=
  (⟨s.indent - 1, s.inKey, s.hasValue⟩,
   (if s.hasValue then [Tok.raw (("\n") ++ indentStr (s.indent - 1))] else []) ++
     [.sty boldCode ("]")])

def rBeginArrayValue (first : Bool) (s : RState) : RState × List Tok :=
  (s, (if first then [] else [Tok.sty boldCode (",")]) ++
    [Tok.raw (("\n") ++ indentStr s.indent)])

def rEndArrayValue (s : RState) : RState × List Tok :=
  (⟨s.indent, s.inKey, true⟩, [])

def rBeginObject (s : RState) : RState × List Tok :=
  (⟨s.indent + 1, s.inKey, false⟩, [.sty boldCode ("\x7b")])

def rEndObject (s : RState) : RState × List Tok :=
  (⟨s.indent - 1, s.inKey, s.hasValue⟩,
   (if s.hasValue then [Tok.raw (("\n") ++ indentStr (s.indent - 1))] else []) ++
     [.sty boldCode ("\x7d")])

def rBeginObjectKey (first : Bool) (s : RState) : RState × List Tok :=
  (⟨s.indent, true, s.hasValue⟩,
   (if first then [] else [Tok.sty boldCode (",")]) ++
     [Tok.raw (("\n") ++ indentStr s.indent)])

def rEndObjectKey (s : RState) : RState × List Tok :=
  (⟨s.indent, false, s.hasValue⟩, [])

def rBeginObjectValue (s : RState) : RState × List Tok :=
  (s, [.sty boldCode (": ")])

def rEndObjectValue (s : RState) : RState × List Tok :=
  (⟨s.indent, s.inKey, true⟩, [])

/-- The `ReadableFormatter` assembled from its callbacks. -/
def readableF : Formatter RState where
  writeNull := rWriteNull
  writeBool := rWriteBool
  writeInt := rWriteInt
  writeNat := rWriteNat
  writeFloat := rWriteFloat
  beginString := rBeginString
  endString := rEndString
  writeFragment := rWriteFragment
  writeEscape := rWriteEscape
  beginArray := rBeginArray
  endArray := rEndArray
  beginArrayValue := rBeginArrayValue
  endArrayValue := rEndArrayValue
  beginObject := rBeginObject
  endObject := rEndObject
  beginObjectKey := rBeginObjectKey
  endObjectKey := rEndObjectKey
  beginObjectValue := rBeginObjectValue
  endObjectValue := rEndObjectValue

def rsInit : RState := ⟨0, false, false⟩

def psInit : PState := ⟨0, false⟩

def compactSer (v : Value) : Except Error String :=
  match serValue compactF v () with
  | .error e => .error e
  | .ok (_, toks) => .ok (render toks)

def prettySer (v : Value) : Except Error String :=
  match serValue prettyF v psInit with
  | .error e => .error e
  | .ok (_, toks) => .ok (render toks)

def readableSer (v : Value) : Except Error String :=
  match serValue readableF v rsInit with
  | .error e => .error e
  | .ok (_, toks) => .ok (render toks)

/-- `Sink::write` of `src/value/json.rs` (lines 102-117): serialize one
record with a fresh clone of the stored formatter, then append one
newline byte. -/
def writeCompact (v : Value) : Except Error String :=
  match compactSer v with
  | .error e => .error e
  | .ok s => .ok (s ++ "\n")

def writePretty (v : Value) : Except Error String :=
  match prettySer v with
  | .error e => .error e
  | .ok s => .ok (s ++ "\n")

def writeReadable (v : Value) : Except Error String :=
  match readableSer v with
  | .error e => .error e
  | .ok s => .ok (s ++ "\n")

def writeStreamWith (write : Value → Except Error String) : List Value → Except Error String
  | [] => .ok ("")
  | v :: rest =>
      match write v, writeStreamWith write rest with
      | .ok s, .ok r => .ok (s ++ r)
      | .error e, _ => .error e
      | _, .error e => .error e

/-- One step of the ANSI-escape stripper: `ESC [ … m` sequences are
removed, everything else is kept.  State 0: plain text; 1: just saw
`ESC`; 2: inside the escape body. -/
def ansiStep : Nat → Char → Nat × Bool
  | 0, c => if c = '\x1b' then (1, false) else (0, true)
  | 1, c => if c = '[' then (2, false) else (0, true)
  | _, c => if c = 'm' then (0, false) else (2, false)

def ansiOut (st : Nat) : List Char → List Char
  | [] => []
  | c :: rest =>
      let r := ansiStep st c
      (if r.2 then [c] else []) ++ ansiOut r.1 rest

def ansiSt (st : Nat) : List Char → Nat
  | [] => st
  | c :: rest => ansiSt (ansiStep st c).1 rest

def stripAnsi (s : String) : String := ⟨ansiOut 0 s.data⟩

def isJsonWs (c : Char) : Bool :=
  c = ' ' || c = '\n' || c = '\t' || c = '\x0d'

/-- One step of the insignificant-whitespace stripper: whitespace outside
string literals is dropped; inside a string literal (entered and left at
unescaped quotes, with a backslash escaping the next character) every
character is kept.  State `(inString, afterBackslash)`. -/
def jwsStep : Bool × Bool → Char → (Bool × Bool) × Bool
  | (false, _), c =>
      if isJsonWs c then ((false, false), false)
      else if c = '"' then ((true, false), true)
      else ((false, false), true)
  | (true, false), c =>
      if c = '\\' then ((true, true), true)
      else if c = '"' then ((false, false), true)
      else ((true, false), true)
  | (true, true), _ => ((true, false), true)

def jwsOut (st : Bool × Bool) : List Char → List Char
  | [] => []
  | c :: rest =>
      let r := jwsStep st c
      (if r.2 then [c] else []) ++ jwsOut r.1 rest

def jwsSt (st : Bool × Bool) : List Char → Bool × Bool
  | [] => st
  | c :: rest => jwsSt (jwsStep st c).1 rest

def stripJsonWs (s : String) : String := ⟨jwsOut (false, false) s.data⟩

theorem c6_from_avro_structure_witness :
    value_from_avro (.array [.long 7]) = some (.sequence [.i64 7]) :=
  (c6_from_avro_structure.2.2.1 [.long 7] [.i64 7]).mpr
    (List.Forall₂.cons rfl List.Forall₂.nil)

/-! ### JSON helper lemmas -/

theorem getLast?_mem_of_eq {l : List Char} {a : Char} (h : l.getLast? = some a) :
    a ∈ l := by
  induction l with
  | nil => cases h
  | cons x t ih =>
      cases t with
      | nil =>
          rw [List.getLast?_singleton] at h
          injection h with h
          simp [h]
      | cons y r =>
          rw [List.getLast?_cons_cons] at h
          exact List.mem_cons_of_mem x (ih h)

def digitChars : List Char :=
  (List.range 10).map (fun n => Char.ofNat (48 + n))

theorem natDigitsGo_spec :
    ∀ fuel n acc, n < fuel →
      ∃ ds, natDigitsGo fuel n acc = ds ++ acc ∧ ds ≠ [] ∧ ∀ c ∈ ds, c ∈ digitChars := by
  intro fuel
  induction fuel with
  | zero => intro n acc h; omega
  | succ fuel ih =>
      intro n acc h
      rw [natDigitsGo]
      by_cases h10 : n < 10
      · rw [if_pos h10]
        refine ⟨[Char.ofNat (48 + n)], rfl, by simp, ?_⟩
        intro c hc
        simp at hc
        subst hc
        interval_cases n <;> decide
      · rw [if_neg h10]
        have hlt : n / 10 < fuel := by
          have hd : n / 10 < n := Nat.div_lt_self (by omega) (by omega)
          omega
        obtain ⟨ds, hds, hne, hdig⟩ := ih (n / 10) (Char.ofNat (48 + n % 10) :: acc) hlt
        refine ⟨ds ++ [Char.ofNat (48 + n % 10)], by rw [hds]; simp, by simp [hne], ?_⟩
        intro c hc
        rcases List.mem_append.mp hc with hc | hc
        · exact hdig c hc
        · simp at hc
          subst hc
          have hm : n % 10 < 10 := Nat.mod_lt _ (by omega)
          revert hm
          generalize n % 10 = m
          intro hm
          interval_cases m <;> decide

theorem natRepr_spec (n : Nat) :
    (natRepr n).data ≠ [] ∧ ∀ c ∈ (natRepr n).data, c ∈ digitChars := by
  obtain ⟨ds, hds, hne, hdig⟩ := natDigitsGo_spec (n + 1) n [] (Nat.lt_succ_self n)
  have : (natRepr n).data = ds := by
    show natDigits n = ds
    rw [natDigits, hds, List.append_nil]
  rw [this]
  exact ⟨hne, hdig⟩

theorem intRepr_spec (n : Int) :
    (intRepr n).data ≠ [] ∧ ∀ c ∈ (intRepr n).data, c ∈ '-' :: digitChars := by
  rw [intRepr]
  by_cases h : n < 0
  · rw [if_pos h]
    obtain ⟨hne, hdig⟩ := natRepr_spec n.natAbs
    have hdata : (("-" : String) ++ natRepr n.natAbs).data = '-' :: (natRepr n.natAbs).data :=
      String.data_append _ _
    rw [hdata]
    constructor
    · simp
    · intro c hc
      rcases List.mem_cons.mp hc with hc | hc
      · simp [hc]
      · exact List.mem_cons_of_mem _ (hdig c hc)
  · rw [if_neg h]
    obtain ⟨hne, hdig⟩ := natRepr_spec n.toNat
    exact ⟨hne, fun c hc => List.mem_cons_of_mem _ (hdig c hc)⟩

/-! Append lemmas for the token renderers and the two scanners. -/

theorem renderChars_append (a b : List Tok) :
    renderChars (a ++ b) = renderChars a ++ renderChars b := by
  induction a with
  | nil => simp [renderChars]
  | cons t r ih => simp [renderChars, ih]

theorem flatChars_append (a b : List Tok) :
    flatChars (a ++ b) = flatChars a ++ flatChars b := by
  induction a with
  | nil => simp [flatChars]
  | cons t r ih => simp [flatChars, ih]

theorem jwsOut_append (st : Bool × Bool) (a b : List Char) :
    jwsOut st (a ++ b) = jwsOut st a ++ jwsOut (jwsSt st a) b := by
  induction a generalizing st with
  | nil => simp [jwsOut, jwsSt]
  | cons c r ih => simp [jwsOut, jwsSt, ih]

theorem jwsSt_append (st : Bool × Bool) (a b : List Char) :
    jwsSt st (a ++ b) = jwsSt (jwsSt st a) b := by
  induction a generalizing st with
  | nil => simp [jwsSt]
  | cons c r ih => simp [jwsSt, ih]

theorem ansiOut_append (st : Nat) (a b : List Char) :
    ansiOut st (a ++ b) = ansiOut st a ++ ansiOut (ansiSt st a) b := by
  induction a generalizing st with
  | nil => simp [ansiOut, ansiSt]
  | cons c r ih => simp [ansiOut, ansiSt, ih]

theorem ansiSt_append (st : Nat) (a b : List Char) :
    ansiSt st (a ++ b) = ansiSt (ansiSt st a) b := by
  induction a generalizing st with
  | nil => simp [ansiSt]
  | cons c r ih => simp [ansiSt, ih]

/-! Character-class traversal lemmas for the whitespace scanner. -/

theorem jws_plain (l : List Char) (h : ∀ c ∈ l, isJsonWs c = false ∧ c ≠ '"') :
    jwsOut (false, false) l = l ∧ jwsSt (false, false) l = (false, false) := by
  induction l with
  | nil => exact ⟨rfl, rfl⟩
  | cons c r ih =>
      obtain ⟨hws, hq⟩ := h c (by simp)
      have hstep : jwsStep (false, false) c = ((false, false), true) := by
        rw [jwsStep]
        simp [hws, hq]
      obtain ⟨iho, ihs⟩ := ih (fun d hd => h d (by simp [hd]))
      rw [jwsOut, jwsSt, hstep]
      simp [iho, ihs]

theorem jws_ws (l : List Char) (h : ∀ c ∈ l, isJsonWs c = true) :
    jwsOut (false, false) l = [] ∧ jwsSt (false, false) l = (false, false) := by
  induction l with
  | nil => exact ⟨rfl, rfl⟩
  | cons c r ih =>
      have hws := h c (by simp)
      have hstep : jwsStep (false, false) c = ((false, false), false) := by
        rw [jwsStep]
        simp [hws]
      obtain ⟨iho, ihs⟩ := ih (fun d hd => h d (by simp [hd]))
      rw [jwsOut, jwsSt, hstep]
      simp [iho, ihs]

theorem jws_inStr (l : List Char) (h : ∀ c ∈ l, c ≠ '"' ∧ c ≠ '\\') :
    jwsOut (true, false) l = l ∧ jwsSt (true, false) l = (true, false) := by
  induction l with
  | nil => exact ⟨rfl, rfl⟩
  | cons c r ih =>
      obtain ⟨hq, hb⟩ := h c (by simp)
      have hstep : jwsStep (true, false) c = ((true, false), true) := by
        rw [jwsStep]
        simp [hq, hb]
      obtain ⟨iho, ihs⟩ := ih (fun d hd => h d (by simp [hd]))
      rw [jwsOut, jwsSt, hstep]
      simp [iho, ihs]

def hexChars : List Char :=
  digitChars ++ (List.range 6).map (fun n => Char.ofNat (97 + n))

theorem hexNibble_mem (m : Nat) (h : m < 16) : hexNibble m ∈ hexChars := by
  interval_cases m <;> decide

theorem needsEscape_false_spec (c : Char) (h : needsEscape c = false) :
    c ≠ '"' ∧ c ≠ '\\' ∧ ¬(c.toNat < 32) := by
  rw [needsEscape] at h
  simp only [Bool.or_eq_false_iff, decide_eq_false_iff_not] at h
  exact ⟨by simpa using h.1.1, by simpa using h.1.2, h.2⟩

theorem escText_scan (c : Char) (h : needsEscape c = true) :
    jwsOut (true, false) (escText c).data = (escText c).data ∧
    jwsSt (true, false) (escText c).data = (true, false) := by
  rw [escText]
  by_cases h1 : c = '"'
  · rw [if_pos h1]; exact ⟨by decide, by decide⟩
  rw [if_neg h1]
  by_cases h2 : c = '\\'
  · rw [if_pos h2]; exact ⟨by decide, by decide⟩
  rw [if_neg h2]
  by_cases h3 : c.toNat = 8
  · rw [if_pos h3]; exact ⟨by decide, by decide⟩
  rw [if_neg h3]
  by_cases h4 : c.toNat = 9
  · rw [if_pos h4]; exact ⟨by decide, by decide⟩
  rw [if_neg h4]
  by_cases h5 : c.toNat = 10
  · rw [if_pos h5]; exact ⟨by decide, by decide⟩
  rw [if_neg h5]
  by_cases h6 : c.toNat = 12
  · rw [if_pos h6]; exact ⟨by decide, by decide⟩
  rw [if_neg h6]
  by_cases h7 : c.toNat = 13
  · rw [if_pos h7]; exact ⟨by decide, by decide⟩
  rw [if_neg h7]
  have hdata : (("\\u00" : String) ++ ⟨[hexNibble (c.toNat / 16), hexNibble (c.toNat % 16)]⟩).data =
      '\\' :: 'u' :: '0' :: '0' :: [hexNibble (c.toNat / 16), hexNibble (c.toNat % 16)] :=
    String.data_append _ _
  rw [hdata]
  have hhexOk : ∀ d ∈ [hexNibble (c.toNat / 16), hexNibble (c.toNat % 16)],
      d ≠ '"' ∧ d ≠ '\\' := by
    have hlt : c.toNat < 32 := by
      rw [needsEscape] at h
      simp only [Bool.or_eq_true, decide_eq_true_eq] at h
      rcases h with (h | h) | h
      · exact absurd (by simpa using h) h1
      · exact absurd (by simpa using h) h2
      · exact h
    have hm1 : hexNibble (c.toNat / 16) ∈ hexChars := hexNibble_mem _ (by omega)
    have hm2 : hexNibble (c.toNat % 16) ∈ hexChars := hexNibble_mem _ (Nat.mod_lt _ (by omega))
    have hall : ∀ d ∈ hexChars, d ≠ '"' ∧ d ≠ '\\' := by decide
    intro d hd
    rcases List.mem_cons.mp hd with hd | hd
    · exact hd ▸ hall _ hm1
    · simp at hd
      exact hd ▸ hall _ hm2
  obtain ⟨hinO, hinS⟩ := jws_inStr _ hhexOk
  constructor
  · show jwsOut (true, false) ('\\' :: 'u' :: '0' :: '0' :: _) = _
    rw [jwsOut, jwsOut, jwsOut, jwsOut]
    simp only [jwsStep]
    simp [hinO]
  · show jwsSt (true, false) ('\\' :: 'u' :: '0' :: '0' :: _) = _
    rw [jwsSt, jwsSt, jwsSt, jwsSt]
    simp only [jwsStep]
    simp [hinS]

/-- Well-formedness of a piece produced by `strPieces`: a fragment holds
only unescaped characters, an escape piece is the escape text of some
escaped character. -/
def PieceOk : Bool × String → Prop
  | (false, s) => ∀ c ∈ s.data, needsEscape c = false
  | (true, s) => ∃ c, needsEscape c = true ∧ s = escText c

theorem strPieces_ok (cs : List Char) : ∀ p ∈ strPieces cs, PieceOk p := by
  induction cs with
  | nil => simp [strPieces]
  | cons c r ih =>
      rw [strPieces]
      by_cases h : needsEscape c
      · rw [if_pos h]
        intro p hp
        rcases List.mem_cons.mp hp with hp | hp
        · rw [hp]
          exact ⟨c, h, rfl⟩
        · exact ih p hp
      · rw [if_neg h]
        cases hsp : strPieces r with
        | nil =>
            intro p hp
            simp at hp
            rw [hp]
            intro d hd
            simp [String.singleton] at hd
            rw [hd]
            exact Bool.of_not_eq_true h
        | cons q more =>
            obtain ⟨isE, s⟩ := q
            cases isE with
            | false =>
                intro p hp
                rcases List.mem_cons.mp hp with hp | hp
                · rw [hp]
                  intro d hd
                  have hdata : (String.singleton c ++ s).data = c :: s.data := by
                    rw [String.data_append]
                    rfl
                  rw [hdata] at hd
                  rcases List.mem_cons.mp hd with hd | hd
                  · rw [hd]
                    exact Bool.of_not_eq_true h
                  · exact (ih (false, s) (by rw [hsp]; simp)) d hd
                · exact ih p (by rw [hsp]; simp [hp])
            | true =>
                intro p hp
                rcases List.mem_cons.mp hp with hp | hp
                · rw [hp]
                  intro d hd
                  simp [String.singleton] at hd
                  rw [hd]
                  exact Bool.of_not_eq_true h
                · exact ih p (by rw [hsp]; exact hp)

def piecesChars : List (Bool × String) → List Char
  | [] => []
  | p :: rest => p.2.data ++ piecesChars rest

theorem jws_pieces (ps : List (Bool × String)) (h : ∀ p ∈ ps, PieceOk p) :
    jwsOut (true, false) (piecesChars ps) = piecesChars ps ∧
    jwsSt (true, false) (piecesChars ps) = (true, false) := by
  induction ps with
  | nil => exact ⟨rfl, rfl⟩
  | cons p rest ih =>
      obtain ⟨isE, s⟩ := p
      obtain ⟨ihO, ihS⟩ := ih (fun q hq => h q (by simp [hq]))
      have hp := h (isE, s) (by simp)
      have hpiece : jwsOut (true, false) s.data = s.data ∧
          jwsSt (true, false) s.data = (true, false) := by
        cases isE with
        | false =>
            refine jws_inStr _ ?_
            intro d hd
            obtain ⟨hq, hb, _⟩ := needsEscape_false_spec d (hp d hd)
            exact ⟨hq, hb⟩
        | true =>
            obtain ⟨c, hc, hs⟩ := hp
            rw [hs]
            exact escText_scan c hc
      rw [piecesChars]
      rw [jwsOut_append, jwsSt_append, hpiece.1, hpiece.2, ihO, ihS]
      exact ⟨rfl, rfl⟩

/-- Agreement of a readable-stripped segment with a compact segment:
scanning the first yields the second, both start and end outside a
string literal, and the second is a fixed point of the scanner. -/
def Seg (r c : List Char) : Prop :=
  jwsOut (false, false) r = c ∧ jwsSt (false, false) r = (false, false) ∧
  jwsOut (false, false) c = c ∧ jwsSt (false, false) c = (false, false)

theorem segNil : Seg [] [] := ⟨rfl, rfl, rfl, rfl⟩

theorem segAppend {r1 c1 r2 c2 : List Char} (h1 : Seg r1 c1) (h2 : Seg r2 c2) :
    Seg (r1 ++ r2) (c1 ++ c2) := by
  obtain ⟨a1, b1, d1, e1⟩ := h1
  obtain ⟨a2, b2, d2, e2⟩ := h2
  refine ⟨?_, ?_, ?_, ?_⟩
  · rw [jwsOut_append, a1, b1, a2]
  · rw [jwsSt_append, b1, b2]
  · rw [jwsOut_append, d1, e1, d2]
  · rw [jwsSt_append, e1, e2]

theorem Seg.plain (l : List Char) (h : ∀ c ∈ l, isJsonWs c = false ∧ c ≠ '"') :
    Seg l l := by
  obtain ⟨o, s⟩ := jws_plain l h
  exact ⟨o, s, o, s⟩

theorem Seg.wsL {r c : List Char} (w : List Char) (hw : ∀ d ∈ w, isJsonWs d = true)
    (h : Seg r c) : Seg (w ++ r) c := by
  obtain ⟨a, b, d, e⟩ := h
  obtain ⟨wo, ws⟩ := jws_ws w hw
  refine ⟨?_, ?_, d, e⟩
  · rw [jwsOut_append, wo, ws, a]
    rfl
  · rw [jwsSt_append, ws, b]

theorem Seg.quoted (body : List Char)
    (hbody : jwsOut (true, false) body = body ∧ jwsSt (true, false) body = (true, false)) :
    Seg ('"' :: body ++ ['"']) ('"' :: body ++ ['"']) := by
  have hq1 : jwsStep (false, false) '"' = ((true, false), true) := by decide
  have hq2 : jwsStep (true, false) '"' = ((false, false), true) := by decide
  have hout : jwsOut (false, false) ('"' :: body ++ ['"']) = '"' :: body ++ ['"'] := by
    show jwsOut (false, false) ('"' :: (body ++ ['"'])) = _
    rw [jwsOut, hq1]
    rw [jwsOut_append, hbody.1, hbody.2]
    rfl
  have hst : jwsSt (false, false) ('"' :: body ++ ['"']) = (false, false) := by
    show jwsSt (false, false) ('"' :: (body ++ ['"'])) = _
    rw [jwsSt, hq1]
    rw [jwsSt_append, hbody.2]
    rfl
  exact ⟨hout, hst, hout, hst⟩

theorem Seg.str (str : String) :
    Seg ('"' :: piecesChars (strPieces str.data) ++ ['"'])
      ('"' :: piecesChars (strPieces str.data) ++ ['"']) :=
  Seg.quoted _ (jws_pieces _ (strPieces_ok str.data))

/-! Applied projection lemmas for the three formatter records, so proofs
can unfold one callback at a time without exposing the whole record. -/

theorem compactF_writeNull (s : Unit) : compactF.writeNull s = (s, [.raw ("null")]) := rfl
theorem compactF_writeBool (b : Bool) (s : Unit) :
    compactF.writeBool b s = (s, [.raw (if b then ("true") else ("false"))]) := rfl
theorem compactF_writeInt (n : Int) (s : Unit) :
    compactF.writeInt n s = (s, [.raw (intRepr n)]) := rfl
theorem compactF_writeNat (n : Nat) (s : Unit) :
    compactF.writeNat n s = (s, [.raw (natRepr n)]) := rfl
theorem compactF_writeFloat (bits : Nat) (s : Unit) :
    compactF.writeFloat bits s = (s, [.raw (floatRepr bits)]) := rfl
theorem compactF_beginString (s : Unit) : compactF.beginString s = (s, [.raw ("\"")]) := rfl
theorem compactF_endString (s : Unit) : compactF.endString s = (s, [.raw ("\"")]) := rfl
theorem compactF_writeFragment (t : String) (s : Unit) :
    compactF.writeFragment t s = (s, [.raw t]) := rfl
theorem compactF_writeEscape (t : String) (s : Unit) :
    compactF.writeEscape t s = (s, [.raw t]) := rfl
theorem compactF_beginArray (s : Unit) : compactF.beginArray s = (s, [.raw ("[")]) := rfl
theorem compactF_endArray (s : Unit) : compactF.endArray s = (s, [.raw ("]")]) := rfl
theorem compactF_beginArrayValue (first : Bool) (s : Unit) :
    compactF.beginArrayValue first s = (s, if first then [] else [.raw (",")]) := rfl
theorem compactF_endArrayValue (s : Unit) : compactF.endArrayValue s = (s, []) := rfl
theorem compactF_beginObject (s : Unit) : compactF.beginObject s = (s, [.raw ("\x7b")]) := rfl
theorem compactF_endObject (s : Unit) : compactF.endObject s = (s, [.raw ("\x7d")]) := rfl
theorem compactF_beginObjectKey (first : Bool) (s : Unit) :
    compactF.beginObjectKey first s = (s, if first then [] else [.raw (",")]) := rfl
theorem compactF_endObjectKey (s : Unit) : compactF.endObjectKey s = (s, []) := rfl
theorem compactF_beginObjectValue (s : Unit) :
    compactF.beginObjectValue s = (s, [.raw (":")]) := rfl
theorem compactF_endObjectValue (s : Unit) : compactF.endObjectValue s = (s, []) := rfl

theorem prettyF_writeNull (s : PState) : prettyF.writeNull s = (s, [.raw ("null")]) := rfl
theorem prettyF_writeBool (b : Bool) (s : PState) :
    prettyF.writeBool b s = (s, [.raw (if b then ("true") else ("false"))]) := rfl
theorem prettyF_writeInt (n : Int) (s : PState) :
    prettyF.writeInt n s = (s, [.raw (intRepr n)]) := rfl
theorem prettyF_writeNat (n : Nat) (s : PState) :
    prettyF.writeNat n s = (s, [.raw (natRepr n)]) := rfl
theorem prettyF_writeFloat (bits : Nat) (s : PState) :
    prettyF.writeFloat bits s = (s, [.raw (floatRepr bits)]) := rfl
theorem prettyF_beginString (s : PState) : prettyF.beginString s = (s, [.raw ("\"")]) := rfl
theorem prettyF_endString (s : PState) : prettyF.endString s = (s, [.raw ("\"")]) := rfl
theorem prettyF_writeFragment (t : String) (s : PState) :
    prettyF.writeFragment t s = (s, [.raw t]) := rfl
theorem prettyF_writeEscape (t : String) (s : PState) :
    prettyF.writeEscape t s = (s, [.raw t]) := rfl
theorem prettyF_beginArray (s : PState) :
    prettyF.beginArray s = (⟨s.indent + 1, false⟩, [.raw ("[")]) := rfl
theorem prettyF_endArray (s : PState) :
    prettyF.endArray s = (⟨s.indent - 1, s.hasValue⟩,
      (if s.hasValue then [Tok.raw (("\n") ++ indentStr (s.indent - 1))] else []) ++
        [.raw ("]")]) := rfl
theorem prettyF_beginArrayValue (first : Bool) (s : PState) :
    prettyF.beginArrayValue first s =
      (s, [.raw ((if first then ("\n") else (",\n")) ++ indentStr s.indent)]) := rfl
theorem prettyF_endArrayValue (s : PState) :
    prettyF.endArrayValue s = (⟨s.indent, true⟩, []) := rfl
theorem prettyF_beginObject (s : PState) :
    prettyF.beginObject s = (⟨s.indent + 1, false⟩, [.raw ("\x7b")]) := rfl
theorem prettyF_endObject (s : PState) :
    prettyF.endObject s = (⟨s.indent - 1, s.hasValue⟩,
      (if s.hasValue then [Tok.raw (("\n") ++ indentStr (s.indent - 1))] else []) ++
        [.raw ("\x7d")]) := rfl
theorem prettyF_beginObjectKey (first : Bool) (s : PState) :
    prettyF.beginObjectKey first s =
      (s, [.raw ((if first then ("\n") else (",\n")) ++ indentStr s.indent)]) := rfl
theorem prettyF_endObjectKey (s : PState) : prettyF.endObjectKey s = (s, []) := rfl
theorem prettyF_beginObjectValue (s : PState) :
    prettyF.beginObjectValue s = (s, [.raw (": ")]) := rfl
theorem prettyF_endObjectValue (s : PState) :
    prettyF.endObjectValue s = (⟨s.indent, true⟩, []) := rfl

theorem readableF_writeNull : readableF.writeNull = rWriteNull := rfl
theorem readableF_writeBool : readableF.writeBool = rWriteBool := rfl
theorem readableF_writeInt : readableF.writeInt = rWriteInt := rfl
theorem readableF_writeNat : readableF.writeNat = rWriteNat := rfl
theorem readableF_writeFloat : readableF.writeFloat = rWriteFloat := rfl
theorem readableF_beginString : readableF.beginString = rBeginString := rfl
theorem readableF_endString : readableF.endString = rEndString := rfl
theorem readableF_writeFragment : readableF.writeFragment = rWriteFragment := rfl
theorem readableF_writeEscape : readableF.writeEscape = rWriteEscape := rfl
theorem readableF_beginArray : readableF.beginArray = rBeginArray := rfl
theorem readableF_endArray : readableF.endArray = rEndArray := rfl
theorem readableF_beginArrayValue : readableF.beginArrayValue = rBeginArrayValue := rfl
theorem readableF_endArrayValue : readableF.endArrayValue = rEndArrayValue := rfl
theorem readableF_beginObject : readableF.beginObject = rBeginObject := rfl
theorem readableF_endObject : readableF.endObject = rEndObject := rfl
theorem readableF_beginObjectKey : readableF.beginObjectKey = rBeginObjectKey := rfl
theorem readableF_endObjectKey : readableF.endObjectKey = rEndObjectKey := rfl
theorem readableF_beginObjectValue : readableF.beginObjectValue = rBeginObjectValue := rfl
theorem readableF_endObjectValue : readableF.endObjectValue = rEndObjectValue := rfl

theorem flatChars_single (t : Tok) : flatChars [t] = (tokTxt t).data := by
  simp [flatChars]

theorem renderChars_single (t : Tok) : renderChars [t] = (renderTok t).data := by
  simp [renderChars]

theorem serPieces_flat_readable (ps : List (Bool × String)) :
    ∀ s, flatChars ((serPieces readableF ps s).2) = piecesChars ps := by
  induction ps with
  | nil => intro s; rfl
  | cons p rest ih =>
      intro s
      obtain ⟨isE, txt⟩ := p
      cases isE <;>
        simp [serPieces, readableF_writeFragment, readableF_writeEscape, rWriteFragment,
          rWriteEscape, flatChars, flatChars_append, tokTxt, piecesChars, ih]

theorem serPieces_chars_compact (ps : List (Bool × String)) :
    ∀ s, renderChars ((serPieces compactF ps s).2) = piecesChars ps := by
  induction ps with
  | nil => intro s; rfl
  | cons p rest ih =>
      intro s
      obtain ⟨isE, txt⟩ := p
      cases isE <;>
        simp [serPieces, compactF_writeFragment, compactF_writeEscape, renderChars,
          renderChars_append, renderTok, piecesChars, ih]

theorem serStr_flat_readable (str : String) (s : RState) :
    flatChars ((serStr readableF str s).2) =
      '"' :: piecesChars (strPieces str.data) ++ ['"'] := by
  show flatChars ((serStr readableF str s).2) = '"' :: (piecesChars (strPieces str.data) ++ ['"'])
  rw [serStr]
  simp only [readableF_beginString, readableF_endString]
  rw [flatChars_append, flatChars_append]
  rw [serPieces_flat_readable]
  simp [rBeginString, rEndString, flatChars, tokTxt]

theorem serStr_chars_compact (str : String) (s : Unit) :
    renderChars ((serStr compactF str s).2) =
      '"' :: piecesChars (strPieces str.data) ++ ['"'] := by
  show renderChars ((serStr compactF str s).2) =
    '"' :: (piecesChars (strPieces str.data) ++ ['"'])
  rw [serStr]
  simp only [compactF_beginString, compactF_endString]
  rw [renderChars_append, renderChars_append]
  rw [serPieces_chars_compact]
  simp [renderChars, renderTok]

theorem serQuotedInt_flat_readable (n : Int) (s : RState) :
    flatChars ((serQuotedInt readableF n s).2) = '"' :: (intRepr n).data ++ ['"'] := by
  show _ = '"' :: ((intRepr n).data ++ ['"'])
  rw [serQuotedInt]
  simp only [readableF_beginString, readableF_endString, readableF_writeInt]
  rw [flatChars_append, flatChars_append]
  simp [rBeginString, rEndString, rWriteInt, flatChars, tokTxt]

theorem serQuotedInt_chars_compact (n : Int) (s : Unit) :
    renderChars ((serQuotedInt compactF n s).2) = '"' :: (intRepr n).data ++ ['"'] := by
  show _ = '"' :: ((intRepr n).data ++ ['"'])
  rw [serQuotedInt]
  simp only [compactF_beginString, compactF_endString, compactF_writeInt]
  rw [renderChars_append, renderChars_append]
  simp [renderChars, renderTok]

theorem serQuotedNat_flat_readable (n : Nat) (s : RState) :
    flatChars ((serQuotedNat readableF n s).2) = '"' :: (natRepr n).data ++ ['"'] := by
  show _ = '"' :: ((natRepr n).data ++ ['"'])
  rw [serQuotedNat]
  simp only [readableF_beginString, readableF_endString, readableF_writeNat]
  rw [flatChars_append, flatChars_append]
  simp [rBeginString, rEndString, rWriteNat, flatChars, tokTxt]

theorem serQuotedNat_chars_compact (n : Nat) (s : Unit) :
    renderChars ((serQuotedNat compactF n s).2) = '"' :: (natRepr n).data ++ ['"'] := by
  show _ = '"' :: ((natRepr n).data ++ ['"'])
  rw [serQuotedNat]
  simp only [compactF_beginString, compactF_endString, compactF_writeNat]
  rw [renderChars_append, renderChars_append]
  simp [renderChars, renderTok]

theorem digit_plain : ∀ d ∈ '-' :: digitChars, isJsonWs d = false ∧ d ≠ '"' := by
  decide

theorem digit_instr : ∀ d ∈ '-' :: digitChars, d ≠ '"' ∧ d ≠ '\\' := by
  decide

theorem seg_intRepr (n : Int) : Seg (intRepr n).data (intRepr n).data :=
  Seg.plain _ (fun c hc => digit_plain c ((intRepr_spec n).2 c hc))

theorem seg_natRepr (n : Nat) : Seg (natRepr n).data (natRepr n).data :=
  Seg.plain _ (fun c hc =>
    digit_plain c (List.mem_cons_of_mem _ ((natRepr_spec n).2 c hc)))

theorem seg_quoted_int (n : Int) :
    Seg ('"' :: (intRepr n).data ++ ['"']) ('"' :: (intRepr n).data ++ ['"']) :=
  Seg.quoted _ (jws_inStr _ (fun c hc => digit_instr c ((intRepr_spec n).2 c hc)))

theorem seg_quoted_nat (n : Nat) :
    Seg ('"' :: (natRepr n).data ++ ['"']) ('"' :: (natRepr n).data ++ ['"']) :=
  Seg.quoted _ (jws_inStr _ (fun c hc =>
    digit_instr c (List.mem_cons_of_mem _ ((natRepr_spec n).2 c hc))))

theorem newlineIndent_ws (k : Nat) :
    ∀ d ∈ (("\n" : String) ++ indentStr k).data, isJsonWs d = true := by
  intro d hd
  rw [String.data_append] at hd
  rcases List.mem_append.mp hd with hd | hd
  · simp at hd
    rw [hd]
    rfl
  · have : d = ' ' := by
      have := List.eq_of_mem_replicate (by simpa [indentStr] using hd)
      exact this
    rw [this]
    rfl

/-- Agreement of the two map-key serializations. -/
theorem key_agree (k : Value) :
    ∀ (rs : RState) r c, serKey readableF k rs = .ok r → serKey compactF k () = .ok c →
      Seg (flatChars r.2) (renderChars c.2) := by
  intro rs r c hr hc
  cases k <;> rw [serKey] at hr hc <;> cases hr <;> cases hc
  all_goals first
    | (rw [serQuotedInt_flat_readable, serQuotedInt_chars_compact]; exact seg_quoted_int _)
    | (rw [serQuotedNat_flat_readable, serQuotedNat_chars_compact]; exact seg_quoted_nat _)
    | (rw [serStr_flat_readable, serStr_chars_compact]; exact Seg.str _)

theorem Seg.congr {r c r2 c2 : List Char} (h : Seg r c) (hr : r2 = r) (hc : c2 = c) :
    Seg r2 c2 := by
  rw [hr, hc]
  exact h

theorem bytes_loop_agree (bs : List Nat) :
    ∀ (first : Bool) (rs : RState),
      Seg (flatChars (serBytesLoop readableF bs first rs).2)
        (renderChars (serBytesLoop compactF bs first ()).2) := by
  induction bs with
  | nil =>
      intro first rs
      exact segNil
  | cons b rest ih =>
      intro first rs
      have hrec := ih false ⟨rs.indent, rs.inKey, true⟩
      have hmid : Seg ((("\n" : String) ++ indentStr rs.indent).data ++
          ((natRepr b).data ++
            flatChars (serBytesLoop readableF rest false ⟨rs.indent, rs.inKey, true⟩).2))
          ((natRepr b).data ++ renderChars (serBytesLoop compactF rest false ()).2) :=
        Seg.wsL _ (newlineIndent_ws _) (segAppend (seg_natRepr b) hrec)
      cases first with
      | true =>
          refine Seg.congr hmid ?_ ?_
          · simp [serBytesLoop, readableF_beginArrayValue, rBeginArrayValue,
              readableF_writeNat, rWriteNat, readableF_endArrayValue, rEndArrayValue,
              flatChars_append, flatChars, tokTxt]
          · simp [serBytesLoop, compactF_beginArrayValue, compactF_writeNat,
              compactF_endArrayValue, renderChars_append, renderChars, renderTok]
      | false =>
          refine Seg.congr (segAppend (Seg.plain [','] (by decide)) hmid) ?_ ?_
          · simp [serBytesLoop, readableF_beginArrayValue, rBeginArrayValue,
              readableF_writeNat, rWriteNat, readableF_endArrayValue, rEndArrayValue,
              flatChars_append, flatChars, tokTxt]
          · simp [serBytesLoop, compactF_beginArrayValue, compactF_writeNat,
              compactF_endArrayValue, renderChars_append, renderChars, renderTok]

/-- One value serializes to agreeing readable/compact segments. -/
def ElemAgree (x : Value) : Prop :=
  ∀ (rs : RState) r c, serValue readableF x rs = .ok r → serValue compactF x () = .ok c →
    Seg (flatChars r.2) (renderChars c.2)

theorem seq_loop_agree : ∀ (l : List Value), (∀ x ∈ l, ElemAgree x) →
    ∀ (first : Bool) (rs : RState) r c,
      serSeq readableF l first rs = .ok r → serSeq compactF l first () = .ok c →
      Seg (flatChars r.2) (renderChars c.2) := by
  intro l
  induction l with
  | nil =>
      intro _ first rs r c hr hc
      rw [serSeq] at hr hc
      cases hr
      cases hc
      exact segNil
  | cons x rest ih =>
      intro hElems first rs r c hr hc
      rw [serSeq] at hr hc
      simp only [readableF_beginArrayValue, compactF_beginArrayValue] at hr hc
      split at hr
      · cases hr
      · rename_i sx tx hxr
        split at hr
        · cases hr
        · rename_i s4 t4 hrr
          cases hr
          split at hc
          · cases hc
          · rename_i ux tcx hxc
            split at hc
            · cases hc
            · rename_i u4 tc4 hcc
              cases hc
              have hx := hElems x (by simp) _ _ _ hxr hxc
              have hrest := ih (fun y hy => hElems y (by simp [hy])) false
                (readableF.endArrayValue sx).1 _ _ hrr hcc
              have hmid : Seg
                  ((("\n" : String) ++ indentStr (rBeginArrayValue first rs).1.indent).data ++
                    (flatChars tx ++ flatChars t4))
                  (renderChars tcx ++ renderChars tc4) :=
                Seg.wsL _ (newlineIndent_ws _) (segAppend hx hrest)
              cases first with
              | true =>
                  refine Seg.congr hmid ?_ ?_
                  · simp [rBeginArrayValue, readableF_endArrayValue, rEndArrayValue,
                      flatChars_append, flatChars, tokTxt]
                  · simp [compactF_endArrayValue, renderChars_append, renderChars]
              | false =>
                  refine Seg.congr
                    (segAppend (Seg.plain [','] (by decide)) hmid) ?_ ?_
                  · simp [rBeginArrayValue, readableF_endArrayValue, rEndArrayValue,
                      flatChars_append, flatChars, tokTxt]
                  · simp [compactF_endArrayValue, renderChars_append, renderChars,
                      renderTok]

theorem entries_loop_agree : ∀ (l : List (Value × Value)),
    (∀ p ∈ l, ElemAgree p.2) →
    ∀ (first : Bool) (rs : RState) r c,
      serEntries readableF l first rs = .ok r → serEntries compactF l first () = .ok c →
      Seg (flatChars r.2) (renderChars c.2) := by
  intro l
  induction l with
  | nil =>
      intro _ first rs r c hr hc
      rw [serEntries] at hr hc
      cases hr
      cases hc
      exact segNil
  | cons p rest ih =>
      obtain ⟨k, v⟩ := p
      intro hElems first rs r c hr hc
      rw [serEntries] at hr hc
      simp only [readableF_beginObjectKey, compactF_beginObjectKey] at hr hc
      split at hr
      · cases hr
      · rename_i sk tk hkr
        split at hr
        · cases hr
        · rename_i sv tv hvr
          split at hr
          · cases hr
          · rename_i s7 t7 hrr
            cases hr
            split at hc
            · cases hc
            · rename_i uk tck hkc
              split at hc
              · cases hc
              · rename_i uv tcv hvc
                split at hc
                · cases hc
                · rename_i u7 tc7 hcc
                  cases hc
                  have hkey := key_agree k _ _ _ hkr hkc
                  have hval := hElems (k, v) (by simp) _ _ _ hvr hvc
                  have hrest := ih (fun q hq => hElems q (by simp [hq])) false
                    (readableF.endObjectValue sv).1 _ _ hrr hcc
                  have hcolon : Seg [':', ' '] [':'] :=
                    ⟨by decide, by decide, by decide, by decide⟩
                  have hmid : Seg
                      ((("\n" : String) ++
                          indentStr (rBeginObjectKey first rs).1.indent).data ++
                        (flatChars tk ++ ([':', ' '] ++
                          (flatChars tv ++ flatChars t7))))
                      (renderChars tck ++ ([':'] ++
                        (renderChars tcv ++ renderChars tc7))) :=
                    Seg.wsL _ (newlineIndent_ws _)
                      (segAppend hkey (segAppend hcolon
                        (segAppend hval hrest)))
                  cases first with
                  | true =>
                      refine Seg.congr hmid ?_ ?_
                      · simp [rBeginObjectKey, readableF_endObjectKey,
                          rEndObjectKey, readableF_beginObjectValue,
                          rBeginObjectValue, readableF_endObjectValue,
                          rEndObjectValue, flatChars_append, flatChars, tokTxt]
                      · simp [compactF_endObjectKey, compactF_beginObjectValue,
                          compactF_endObjectValue, renderChars_append,
                          renderChars, renderTok]
                  | false =>
                      refine Seg.congr
                        (segAppend (Seg.plain [','] (by decide)) hmid) ?_ ?_
                      · simp [rBeginObjectKey, readableF_endObjectKey,
                          rEndObjectKey, readableF_beginObjectValue,
                          rBeginObjectValue, readableF_endObjectValue,
                          rEndObjectValue, flatChars_append, flatChars, tokTxt]
                      · simp [compactF_endObjectKey, compactF_beginObjectValue,
                          compactF_endObjectValue, renderChars_append,
                          renderChars, renderTok]

theorem ser_agree : ∀ v, ElemAgree v := by
  apply Value.strongInd
  intro v ih
  cases v with
  | unit =>
      intro rs r c hr hc
      rw [serValue] at hr hc
      cases hr
      cases hc
      show Seg (flatChars [Tok.sty nullCode ("null")]) (renderChars [Tok.raw ("null")])
      rw [flatChars_single, renderChars_single]
      exact Seg.plain _ (by decide)
  | bool b =>
      intro rs r c hr hc
      rw [serValue] at hr hc
      cases hr
      cases hc
      cases b
      · show Seg (flatChars [Tok.sty falseCode ("false")]) (renderChars [Tok.raw ("false")])
        rw [flatChars_single, renderChars_single]
        exact Seg.plain _ (by decide)
      · show Seg (flatChars [Tok.sty trueCode ("true")]) (renderChars [Tok.raw ("true")])
        rw [flatChars_single, renderChars_single]
        exact Seg.plain _ (by decide)
  | i8 n =>
      intro rs r c hr hc
      rw [serValue] at hr hc
      cases hr
      cases hc
      show Seg (flatChars [Tok.sty numberCode (intRepr n)]) (renderChars [Tok.raw (intRepr n)])
      rw [flatChars_single, renderChars_single]
      exact seg_intRepr n
  | i16 n =>
      intro rs r c hr hc
      rw [serValue] at hr hc
      cases hr
      cases hc
      show Seg (flatChars [Tok.sty numberCode (intRepr n)]) (renderChars [Tok.raw (intRepr n)])
      rw [flatChars_single, renderChars_single]
      exact seg_intRepr n
  | i32 n =>
      intro rs r c hr hc
      rw [serValue] at hr hc
      cases hr
      cases hc
      show Seg (flatChars [Tok.sty numberCode (intRepr n)]) (renderChars [Tok.raw (intRepr n)])
      rw [flatChars_single, renderChars_single]
      exact seg_intRepr n
  | i64 n =>
      intro rs r c hr hc
      rw [serValue] at hr hc
      cases hr
      cases hc
      show Seg (flatChars [Tok.sty numberCode (intRepr n)]) (renderChars [Tok.raw (intRepr n)])
      rw [flatChars_single, renderChars_single]
      exact seg_intRepr n
  | u8 n =>
      intro rs r c hr hc
      rw [serValue] at hr hc
      cases hr
      cases hc
      show Seg (flatChars [Tok.sty numberCode (natRepr n)]) (renderChars [Tok.raw (natRepr n)])
      rw [flatChars_single, renderChars_single]
      exact seg_natRepr n
  | u16 n =>
      intro rs r c hr hc
      rw [serValue] at hr hc
      cases hr
      cases hc
      show Seg (flatChars [Tok.sty numberCode (natRepr n)]) (renderChars [Tok.raw (natRepr n)])
      rw [flatChars_single, renderChars_single]
      exact seg_natRepr n
  | u32 n =>
      intro rs r c hr hc
      rw [serValue] at hr hc
      cases hr
      cases hc
      show Seg (flatChars [Tok.sty numberCode (natRepr n)]) (renderChars [Tok.raw (natRepr n)])
      rw [flatChars_single, renderChars_single]
      exact seg_natRepr n
  | u64 n =>
      intro rs r c hr hc
      rw [serValue] at hr hc
      cases hr
      cases hc
      show Seg (flatChars [Tok.sty numberCode (natRepr n)]) (renderChars [Tok.raw (natRepr n)])
      rw [flatChars_single, renderChars_single]
      exact seg_natRepr n
  | f32 bits =>
      intro rs r c hr hc
      rw [serValue] at hr hc
      cases hr
      cases hc
      show Seg (flatChars [Tok.sty numberCode (floatRepr bits)])
        (renderChars [Tok.raw (floatRepr bits)])
      rw [flatChars_single, renderChars_single]
      exact seg_natRepr bits
  | f64 bits =>
      intro rs r c hr hc
      rw [serValue] at hr hc
      cases hr
      cases hc
      show Seg (flatChars [Tok.sty numberCode (floatRepr bits)])
        (renderChars [Tok.raw (floatRepr bits)])
      rw [flatChars_single, renderChars_single]
      exact seg_natRepr bits
  | char ch =>
      intro rs r c hr hc
      rw [serValue] at hr hc
      cases hr
      cases hc
      rw [serStr_flat_readable, serStr_chars_compact]
      exact Seg.str _
  | string str =>
      intro rs r c hr hc
      rw [serValue] at hr hc
      cases hr
      cases hc
      rw [serStr_flat_readable, serStr_chars_compact]
      exact Seg.str _
  | bytes bs =>
      intro rs r c hr hc
      rw [serValue] at hr hc
      cases hr
      cases hc
      rw [serBytes, serBytes]
      simp only [readableF_beginArray, rBeginArray, compactF_beginArray]
      have hloop := bytes_loop_agree bs true ⟨rs.indent + 1, rs.inKey, false⟩
      set mid := serBytesLoop readableF bs true ⟨rs.indent + 1, rs.inKey, false⟩ with hmid
      by_cases hv : mid.1.hasValue
      · refine Seg.congr
          (segAppend (Seg.plain ['['] (by decide))
            (segAppend hloop
              (Seg.wsL _ (newlineIndent_ws (mid.1.indent - 1))
                (Seg.plain [']'] (by decide))))) ?_ ?_
        · simp [readableF_endArray, rEndArray, hv, flatChars_append, flatChars, tokTxt]
        · simp [compactF_endArray, renderChars_append, renderChars, renderTok]
      · refine Seg.congr
          (segAppend (Seg.plain ['['] (by decide))
            (segAppend hloop (Seg.plain [']'] (by decide)))) ?_ ?_
        · simp [readableF_endArray, rEndArray, hv, flatChars_append, flatChars, tokTxt]
        · simp [compactF_endArray, renderChars_append, renderChars, renderTok]
  | sequence xs =>
      intro rs r c hr hc
      have hElems : ∀ x ∈ xs, ElemAgree x := by
        intro x hx
        apply ih
        have h1 := List.sizeOf_lt_of_mem hx
        have h2 : sizeOf (Value.sequence xs) = 1 + sizeOf xs := by simp
        omega
      rw [serValue] at hr hc
      simp only [readableF_beginArray, rBeginArray, compactF_beginArray] at hr hc
      split at hr
      · cases hr
      · rename_i s2 t2 hseq
        cases hr
        split at hc
        · cases hc
        · rename_i u2 tc2 hcseq
          cases hc
          have hloop := seq_loop_agree xs hElems true ⟨rs.indent + 1, rs.inKey, false⟩
            _ _ hseq hcseq
          by_cases hv : s2.hasValue
          · refine Seg.congr
              (segAppend (Seg.plain ['['] (by decide))
                (segAppend hloop
                  (Seg.wsL _ (newlineIndent_ws (s2.indent - 1))
                    (Seg.plain [']'] (by decide))))) ?_ ?_
            · simp [readableF_endArray, rEndArray, hv, flatChars_append, flatChars, tokTxt]
            · simp [compactF_endArray, renderChars_append, renderChars, renderTok]
          · refine Seg.congr
              (segAppend (Seg.plain ['['] (by decide))
                (segAppend hloop (Seg.plain [']'] (by decide)))) ?_ ?_
            · simp [readableF_endArray, rEndArray, hv, flatChars_append, flatChars, tokTxt]
            · simp [compactF_endArray, renderChars_append, renderChars, renderTok]
  | map kvs =>
      intro rs r c hr hc
      have hElems : ∀ p ∈ kvs, ElemAgree p.2 := by
        intro p hp
        apply ih
        have h1 := List.sizeOf_lt_of_mem hp
        have h2 : sizeOf (Value.map kvs) = 1 + sizeOf kvs := by simp
        have h3 : sizeOf p.2 < sizeOf p := by
          obtain ⟨a, b⟩ := p
          simp
        omega
      rw [serValue] at hr hc
      simp only [readableF_beginObject, rBeginObject, compactF_beginObject] at hr hc
      split at hr
      · cases hr
      · rename_i s2 t2 hseq
        cases hr
        split at hc
        · cases hc
        · rename_i u2 tc2 hcseq
          cases hc
          have hloop := entries_loop_agree kvs hElems true ⟨rs.indent + 1, rs.inKey, false⟩
            _ _ hseq hcseq
          by_cases hv : s2.hasValue
          · refine Seg.congr
              (segAppend (Seg.plain ['\x7b'] (by decide))
                (segAppend hloop
                  (Seg.wsL _ (newlineIndent_ws (s2.indent - 1))
                    (Seg.plain ['\x7d'] (by decide))))) ?_ ?_
            · simp [readableF_endObject, rEndObject, hv, flatChars_append, flatChars, tokTxt]
            · simp [compactF_endObject, renderChars_append, renderChars, renderTok]
          · refine Seg.congr
              (segAppend (Seg.plain ['\x7b'] (by decide))
                (segAppend hloop (Seg.plain ['\x7d'] (by decide)))) ?_ ?_
            · simp [readableF_endObject, rEndObject, hv, flatChars_append, flatChars, tokTxt]
            · simp [compactF_endObject, renderChars_append, renderChars, renderTok]

/-- Well-formedness of an emitted token: a style wrapper's code has no
terminator character and no text contains a raw escape character (raw
escapes in string bodies are impossible because the serializer escapes
every control character). -/
def TokOk : Tok → Prop
  | .raw t => ∀ c ∈ t.data, c ≠ '\x1b'
  | .sty code t => (∀ c ∈ code.data, c ≠ 'm') ∧ (∀ c ∈ t.data, c ≠ '\x1b')

def ToksOk (l : List Tok) : Prop := ∀ t ∈ l, TokOk t

theorem toksOk_nil : ToksOk [] := by simp [ToksOk]

theorem toksOk_append {a b : List Tok} (ha : ToksOk a) (hb : ToksOk b) :
    ToksOk (a ++ b) := by
  intro t ht
  rcases List.mem_append.mp ht with ht | ht
  · exact ha t ht
  · exact hb t ht

theorem ws_ne_esc (d : Char) (h : isJsonWs d = true) : d ≠ '\x1b' := by
  intro hc
  rw [hc] at h
  exact absurd h (by decide)

theorem frag_ne_esc (d : Char) (h : needsEscape d = false) : d ≠ '\x1b' := by
  obtain ⟨_, _, h3⟩ := needsEscape_false_spec d h
  intro he
  rw [he] at h3
  exact h3 (by decide)

theorem escText_ne_esc (c : Char) (h : needsEscape c = true) :
    ∀ d ∈ (escText c).data, d ≠ '\x1b' := by
  rw [escText]
  by_cases h1 : c = '"'
  · rw [if_pos h1]; decide
  rw [if_neg h1]
  by_cases h2 : c = '\\'
  · rw [if_pos h2]; decide
  rw [if_neg h2]
  by_cases h3 : c.toNat = 8
  · rw [if_pos h3]; decide
  rw [if_neg h3]
  by_cases h4 : c.toNat = 9
  · rw [if_pos h4]; decide
  rw [if_neg h4]
  by_cases h5 : c.toNat = 10
  · rw [if_pos h5]; decide
  rw [if_neg h5]
  by_cases h6 : c.toNat = 12
  · rw [if_pos h6]; decide
  rw [if_neg h6]
  by_cases h7 : c.toNat = 13
  · rw [if_pos h7]; decide
  rw [if_neg h7]
  have hdata : (("\\u00" : String) ++ ⟨[hexNibble (c.toNat / 16), hexNibble (c.toNat % 16)]⟩).data =
      '\\' :: 'u' :: '0' :: '0' :: [hexNibble (c.toNat / 16), hexNibble (c.toNat % 16)] :=
    String.data_append _ _
  rw [hdata]
  have hlt : c.toNat < 32 := by
    rw [needsEscape] at h
    simp only [Bool.or_eq_true, decide_eq_true_eq] at h
    rcases h with (h | h) | h
    · exact absurd (by simpa using h) h1
    · exact absurd (by simpa using h) h2
    · exact h
  have hm1 : hexNibble (c.toNat / 16) ∈ hexChars := hexNibble_mem _ (by omega)
  have hm2 : hexNibble (c.toNat % 16) ∈ hexChars := hexNibble_mem _ (Nat.mod_lt _ (by omega))
  have hall : ∀ d ∈ hexChars, d ≠ '\x1b' := by decide
  intro d hd
  rcases List.mem_cons.mp hd with hd | hd
  · rw [hd]; decide
  rcases List.mem_cons.mp hd with hd | hd
  · rw [hd]; decide
  rcases List.mem_cons.mp hd with hd | hd
  · rw [hd]; decide
  rcases List.mem_cons.mp hd with hd | hd
  · rw [hd]; decide
  rcases List.mem_cons.mp hd with hd | hd
  · exact hd ▸ hall _ hm1
  · simp at hd
    exact hd ▸ hall _ hm2

theorem ifcode_mfree (b : Bool) (c1 c2 : String)
    (h1 : ∀ c ∈ c1.data, c ≠ 'm') (h2 : ∀ c ∈ c2.data, c ≠ 'm') :
    ∀ c ∈ (if b then c1 else c2).data, c ≠ 'm' := by
  cases b
  · exact h2
  · exact h1

theorem digits_ne_esc : ∀ d ∈ '-' :: digitChars, d ≠ '\x1b' := by decide

theorem intRepr_tokOk (n : Int) : TokOk (Tok.sty numberCode (intRepr n)) :=
  ⟨by decide, fun c hc => digits_ne_esc c ((intRepr_spec n).2 c hc)⟩

theorem natRepr_tokOk (n : Nat) : TokOk (Tok.sty numberCode (natRepr n)) :=
  ⟨by decide, fun c hc =>
    digits_ne_esc c (List.mem_cons_of_mem _ ((natRepr_spec n).2 c hc))⟩

theorem nlIndent_tokOk (k : Nat) : TokOk (Tok.raw (("\n" : String) ++ indentStr k)) :=
  fun c hc => ws_ne_esc c (newlineIndent_ws k c hc)

theorem serPieces_toksOk (ps : List (Bool × String)) (hps : ∀ p ∈ ps, PieceOk p) :
    ∀ s, ToksOk (serPieces readableF ps s).2 := by
  induction ps with
  | nil => intro s; exact toksOk_nil
  | cons p rest ih =>
      intro s
      obtain ⟨isE, txt⟩ := p
      have hp := hps (isE, txt) (by simp)
      have hrest := ih (fun q hq => hps q (by simp [hq]))
      cases isE with
      | false =>
          refine toksOk_append ?_ (hrest _)
          intro t ht
          simp only [serPieces, readableF_writeFragment, rWriteFragment] at ht
          simp at ht
          rw [ht]
          exact ⟨ifcode_mfree _ _ _ (by decide) (by decide),
            fun d hd => frag_ne_esc d (hp d hd)⟩
      | true =>
          refine toksOk_append ?_ (hrest _)
          intro t ht
          simp only [serPieces, readableF_writeEscape, rWriteEscape] at ht
          simp at ht
          rw [ht]
          obtain ⟨c0, hc0, htxt⟩ := hp
          exact ⟨ifcode_mfree _ _ _ (by decide) (by decide),
            htxt ▸ escText_ne_esc c0 hc0⟩

theorem serStr_toksOk (str : String) (s : RState) :
    ToksOk (serStr readableF str s).2 := by
  rw [serStr]
  simp only [readableF_beginString, readableF_endString]
  refine toksOk_append (toksOk_append ?_ ?_) ?_
  · intro t ht
    simp [rBeginString] at ht
    rw [ht]
    exact ⟨ifcode_mfree _ _ _ (by decide) (by decide), by decide⟩
  · exact serPieces_toksOk _ (strPieces_ok str.data) _
  · intro t ht
    simp [rEndString] at ht
    rw [ht]
    exact ⟨ifcode_mfree _ _ _ (by decide) (by decide), by decide⟩

theorem serQuotedInt_toksOk (n : Int) (s : RState) :
    ToksOk (serQuotedInt readableF n s).2 := by
  rw [serQuotedInt]
  simp only [readableF_beginString, readableF_endString, readableF_writeInt]
  refine toksOk_append (toksOk_append ?_ ?_) ?_
  · intro t ht
    simp [rBeginString] at ht
    rw [ht]
    exact ⟨ifcode_mfree _ _ _ (by decide) (by decide), by decide⟩
  · intro t ht
    simp [rWriteInt] at ht
    rw [ht]
    exact intRepr_tokOk n
  · intro t ht
    simp [rEndString] at ht
    rw [ht]
    exact ⟨ifcode_mfree _ _ _ (by decide) (by decide), by decide⟩

theorem serQuotedNat_toksOk (n : Nat) (s : RState) :
    ToksOk (serQuotedNat readableF n s).2 := by
  rw [serQuotedNat]
  simp only [readableF_beginString, readableF_endString, readableF_writeNat]
  refine toksOk_append (toksOk_append ?_ ?_) ?_
  · intro t ht
    simp [rBeginString] at ht
    rw [ht]
    exact ⟨ifcode_mfree _ _ _ (by decide) (by decide), by decide⟩
  · intro t ht
    simp [rWriteNat] at ht
    rw [ht]
    exact natRepr_tokOk n
  · intro t ht
    simp [rEndString] at ht
    rw [ht]
    exact ⟨ifcode_mfree _ _ _ (by decide) (by decide), by decide⟩

theorem serKey_toksOk (k : Value) :
    ∀ (s : RState) r, serKey readableF k s = .ok r → ToksOk r.2 := by
  intro s r hk
  cases k <;> rw [serKey] at hk <;> cases hk
  all_goals first
    | exact serQuotedInt_toksOk _ _
    | exact serQuotedNat_toksOk _ _
    | exact serStr_toksOk _ _

theorem serBytesLoop_toksOk (bs : List Nat) :
    ∀ (first : Bool) (s : RState), ToksOk (serBytesLoop readableF bs first s).2 := by
  induction bs with
  | nil => intro first s; exact toksOk_nil
  | cons b rest ih =>
      intro first s
      rw [serBytesLoop]
      simp only [readableF_beginArrayValue, readableF_writeNat, readableF_endArrayValue]
      refine toksOk_append (toksOk_append (toksOk_append ?_ ?_) ?_) (ih false _)
      · intro t ht
        simp [rBeginArrayValue] at ht
        cases first with
        | true =>
            simp at ht
            rw [ht]
            exact nlIndent_tokOk _
        | false =>
            simp at ht
            rcases ht with ht | ht <;> rw [ht]
            · exact ⟨by decide, by decide⟩
            · exact nlIndent_tokOk _
      · intro t ht
        simp [rWriteNat] at ht
        rw [ht]
        exact natRepr_tokOk b
      · intro t ht
        simp [rEndArrayValue] at ht

theorem readable_toksOk : ∀ v : Value, ∀ (s : RState) r,
    serValue readableF v s = .ok r → ToksOk r.2 := by
  apply Value.strongInd
    (P := fun v => ∀ (s : RState) r, serValue readableF v s = .ok r → ToksOk r.2)
  intro v ih
  have hsty1 : TokOk (Tok.sty nullCode ("null")) := ⟨by decide, by decide⟩
  cases v with
  | unit =>
      intro s r hr
      rw [serValue] at hr
      cases hr
      intro t ht
      simp [readableF_writeNull, rWriteNull] at ht
      rw [ht]
      exact ⟨by decide, by decide⟩
  | bool b =>
      intro s r hr
      rw [serValue] at hr
      cases hr
      intro t ht
      simp [readableF_writeBool, rWriteBool] at ht
      rw [ht]
      exact ⟨ifcode_mfree _ _ _ (by decide) (by decide),
        by cases b <;> decide⟩
  | i8 n =>
      intro s r hr
      rw [serValue] at hr
      cases hr
      intro t ht
      simp [readableF_writeInt, rWriteInt] at ht
      rw [ht]
      exact intRepr_tokOk n
  | i16 n =>
      intro s r hr
      rw [serValue] at hr
      cases hr
      intro t ht
      simp [readableF_writeInt, rWriteInt] at ht
      rw [ht]
      exact intRepr_tokOk n
  | i32 n =>
      intro s r hr
      rw [serValue] at hr
      cases hr
      intro t ht
      simp [readableF_writeInt, rWriteInt] at ht
      rw [ht]
      exact intRepr_tokOk n
  | i64 n =>
      intro s r hr
      rw [serValue] at hr
      cases hr
      intro t ht
      simp [readableF_writeInt, rWriteInt] at ht
      rw [ht]
      exact intRepr_tokOk n
  | u8 n =>
      intro s r hr
      rw [serValue] at hr
      cases hr
      intro t ht
      simp [readableF_writeNat, rWriteNat] at ht
      rw [ht]
      exact natRepr_tokOk n
  | u16 n =>
      intro s r hr
      rw [serValue] at hr
      cases hr
      intro t ht
      simp [readableF_writeNat, rWriteNat] at ht
      rw [ht]
      exact natRepr_tokOk n
  | u32 n =>
      intro s r hr
      rw [serValue] at hr
      cases hr
      intro t ht
      simp [readableF_writeNat, rWriteNat] at ht
      rw [ht]
      exact natRepr_tokOk n
  | u64 n =>
      intro s r hr
      rw [serValue] at hr
      cases hr
      intro t ht
      simp [readableF_writeNat, rWriteNat] at ht
      rw [ht]
      exact natRepr_tokOk n
  | f32 bits =>
      intro s r hr
      rw [serValue] at hr
      cases hr
      intro t ht
      simp [readableF_writeFloat, rWriteFloat] at ht
      rw [ht]
      exact natRepr_tokOk bits
  | f64 bits =>
      intro s r hr
      rw [serValue] at hr
      cases hr
      intro t ht
      simp [readableF_writeFloat, rWriteFloat] at ht
      rw [ht]
      exact natRepr_tokOk bits
  | char ch =>
      intro s r hr
      rw [serValue] at hr
      cases hr
      exact serStr_toksOk _ _
  | string str =>
      intro s r hr
      rw [serValue] at hr
      cases hr
      exact serStr_toksOk _ _
  | bytes bs =>
      intro s r hr
      rw [serValue] at hr
      cases hr
      rw [serBytes]
      simp only [readableF_beginArray, readableF_endArray]
      refine toksOk_append (toksOk_append ?_ (serBytesLoop_toksOk bs true _)) ?_
      · intro t ht
        simp [rBeginArray] at ht
        rw [ht]
        exact ⟨by decide, by decide⟩
      · intro t ht
        simp [rEndArray] at ht
        rcases ht with ⟨_, ht⟩ | ht
        · rw [ht]
          exact nlIndent_tokOk _
        · rw [ht]
          exact ⟨by decide, by decide⟩
  | sequence xs =>
      intro s r hr
      have hElems : ∀ x ∈ xs, ∀ (s2 : RState) r2,
          serValue readableF x s2 = .ok r2 → ToksOk r2.2 := by
        intro x hx
        apply ih
        have h1 := List.sizeOf_lt_of_mem hx
        have h2 : sizeOf (Value.sequence xs) = 1 + sizeOf xs := by simp
        omega
      rw [serValue] at hr
      split at hr
      · cases hr
      · rename_i s2 t2 hseq
        cases hr
        have hloop : ∀ (l : List Value), (∀ x ∈ l, ∀ (s2 : RState) r2,
            serValue readableF x s2 = .ok r2 → ToksOk r2.2) →
            ∀ (first : Bool) (s3 : RState) r3,
              serSeq readableF l first s3 = .ok r3 → ToksOk r3.2 := by
          intro l
          induction l with
          | nil =>
              intro _ first s3 r3 h3
              rw [serSeq] at h3
              cases h3
              exact toksOk_nil
          | cons x rest ihl =>
              intro hel first s3 r3 h3
              rw [serSeq] at h3
              simp only [readableF_beginArrayValue] at h3
              split at h3
              · cases h3
              · rename_i sx tx hxr
                split at h3
                · cases h3
                · rename_i s4 t4 hrr
                  cases h3
                  refine toksOk_append (toksOk_append (toksOk_append ?_ ?_) ?_) ?_
                  · intro t ht
                    simp [rBeginArrayValue] at ht
                    cases first with
                    | true =>
                        simp at ht
                        rw [ht]
                        exact nlIndent_tokOk _
                    | false =>
                        simp at ht
                        rcases ht with ht | ht <;> rw [ht]
                        · exact ⟨by decide, by decide⟩
                        · exact nlIndent_tokOk _
                  · exact hel x (by simp) _ _ hxr
                  · intro t ht
                    simp only [readableF_endArrayValue] at ht
                    simp [rEndArrayValue] at ht
                  · exact ihl (fun y hy => hel y (by simp [hy])) false _ _ hrr
        refine toksOk_append (toksOk_append ?_ (hloop xs hElems true _ _ hseq)) ?_
        · intro t ht
          simp only [readableF_beginArray] at ht
          simp [rBeginArray] at ht
          rw [ht]
          exact ⟨by decide, by decide⟩
        · intro t ht
          simp only [readableF_endArray] at ht
          simp [rEndArray] at ht
          rcases ht with ⟨_, ht⟩ | ht
          · rw [ht]
            exact nlIndent_tokOk _
          · rw [ht]
            exact ⟨by decide, by decide⟩
  | map kvs =>
      intro s r hr
      have hElems : ∀ p ∈ kvs, ∀ (s2 : RState) r2,
          serValue readableF p.2 s2 = .ok r2 → ToksOk r2.2 := by
        intro p hp
        apply ih
        have h1 := List.sizeOf_lt_of_mem hp
        have h2 : sizeOf (Value.map kvs) = 1 + sizeOf kvs := by simp
        have h3 : sizeOf p.2 < sizeOf p := by
          obtain ⟨a, b⟩ := p
          simp
        omega
      rw [serValue] at hr
      split at hr
      · cases hr
      · rename_i s2 t2 hseq
        cases hr
        have hloop : ∀ (l : List (Value × Value)), (∀ p ∈ l, ∀ (s2 : RState) r2,
            serValue readableF p.2 s2 = .ok r2 → ToksOk r2.2) →
            ∀ (first : Bool) (s3 : RState) r3,
              serEntries readableF l first s3 = .ok r3 → ToksOk r3.2 := by
          intro l
          induction l with
          | nil =>
              intro _ first s3 r3 h3
              rw [serEntries] at h3
              cases h3
              exact toksOk_nil
          | cons p rest ihl =>
              obtain ⟨k, v⟩ := p
              intro hel first s3 r3 h3
              rw [serEntries] at h3
              simp only [readableF_beginObjectKey] at h3
              split at h3
              · cases h3
              · rename_i sk tk hkr
                split at h3
                · cases h3
                · rename_i sv tv hvr
                  split at h3
                  · cases h3
                  · rename_i s7 t7 hrr
                    cases h3
                    refine toksOk_append (toksOk_append (toksOk_append
                      (toksOk_append (toksOk_append (toksOk_append ?_ ?_) ?_) ?_) ?_) ?_) ?_
                    · intro t ht
                      simp [rBeginObjectKey] at ht
                      cases first with
                      | true =>
                          simp at ht
                          rw [ht]
                          exact nlIndent_tokOk _
                      | false =>
                          simp at ht
                          rcases ht with ht | ht <;> rw [ht]
                          · exact ⟨by decide, by decide⟩
                          · exact nlIndent_tokOk _
                    · exact serKey_toksOk k _ _ hkr
                    · intro t ht
                      simp only [readableF_endObjectKey] at ht
                      simp [rEndObjectKey] at ht
                    · intro t ht
                      simp only [readableF_beginObjectValue] at ht
                      simp [rBeginObjectValue] at ht
                      rw [ht]
                      exact ⟨by decide, by decide⟩
                    · exact hel (k, v) (by simp) _ _ hvr
                    · intro t ht
                      simp only [readableF_endObjectValue] at ht
                      simp [rEndObjectValue] at ht
                    · exact ihl (fun q hq => hel q (by simp [hq])) false _ _ hrr
        refine toksOk_append (toksOk_append ?_ (hloop kvs hElems true _ _ hseq)) ?_
        · intro t ht
          simp only [readableF_beginObject] at ht
          simp [rBeginObject] at ht
          rw [ht]
          exact ⟨by decide, by decide⟩
        · intro t ht
          simp only [readableF_endObject] at ht
          simp [rEndObject] at ht
          rcases ht with ⟨_, ht⟩ | ht
          · rw [ht]
            exact nlIndent_tokOk _
          · rw [ht]
            exact ⟨by decide, by decide⟩

theorem ansi_noesc (l : List Char) (h : ∀ c ∈ l, c ≠ '\x1b') :
    ansiOut 0 l = l ∧ ansiSt 0 l = 0 := by
  induction l with
  | nil => exact ⟨rfl, rfl⟩
  | cons c r ih =>
      have hc := h c (by simp)
      have hstep : ansiStep 0 c = (0, true) := by
        show (if c = '\x1b' then ((1 : Nat), false) else ((0 : Nat), true)) = (0, true)
        rw [if_neg hc]
      obtain ⟨iho, ihs⟩ := ih (fun d hd => h d (by simp [hd]))
      rw [ansiOut, ansiSt, hstep]
      simp [iho, ihs]

theorem ansi_code_skip (code : List Char) (h : ∀ c ∈ code, c ≠ 'm') (rest : List Char) :
    ansiOut 2 (code ++ 'm' :: rest) = ansiOut 0 rest ∧
    ansiSt 2 (code ++ 'm' :: rest) = ansiSt 0 rest := by
  induction code with
  | nil =>
      have hstep : ansiStep 2 'm' = (0, false) := by decide
      rw [List.nil_append, ansiOut, ansiSt, hstep]
      simp
  | cons c r ih =>
      have hc := h c (by simp)
      have hstep : ansiStep 2 c = (2, false) := by
        show (if c = 'm' then ((0 : Nat), false) else ((2 : Nat), false)) = (2, false)
        rw [if_neg hc]
      obtain ⟨iho, ihs⟩ := ih (fun d hd => h d (by simp [hd]))
      rw [List.cons_append, ansiOut, ansiSt, hstep]
      simp [iho, ihs]

theorem ansi_sty (code txt : String) (hcode : ∀ c ∈ code.data, c ≠ 'm')
    (htxt : ∀ c ∈ txt.data, c ≠ '\x1b') :
    ansiOut 0 (renderTok (Tok.sty code txt)).data = txt.data ∧
    ansiSt 0 (renderTok (Tok.sty code txt)).data = 0 := by
  have hdata : (renderTok (Tok.sty code txt)).data =
      '\x1b' :: '[' :: (code.data ++ 'm' :: (txt.data ++ ['\x1b', '[', '0', 'm'])) := by
    show ((((("\x1b[" : String) ++ code) ++ ("m")) ++ txt) ++ ("\x1b[0m")).data = _
    rw [String.data_append, String.data_append, String.data_append, String.data_append]
    simp
  rw [hdata]
  have h1 : ansiStep 0 '\x1b' = (1, false) := by decide
  have h2 : ansiStep 1 '[' = (2, false) := by decide
  obtain ⟨hso, hss⟩ := ansi_code_skip code.data hcode (txt.data ++ ['\x1b', '[', '0', 'm'])
  obtain ⟨hto, hts⟩ := ansi_noesc txt.data htxt
  have hsuf : ansiOut 0 (['\x1b', '[', '0', 'm'] : List Char) = [] ∧
      ansiSt 0 (['\x1b', '[', '0', 'm'] : List Char) = 0 := by decide
  constructor
  · rw [ansiOut, h1]
    rw [ansiOut, h2]
    rw [hso]
    rw [ansiOut_append, hto, hts, hsuf.1]
    simp
  · rw [ansiSt, h1, ansiSt, h2, hss, ansiSt_append, hts, hsuf.2]

theorem strip_render_toks (toks : List Tok) (h : ToksOk toks) :
    ansiOut 0 (renderChars toks) = flatChars toks ∧ ansiSt 0 (renderChars toks) = 0 := by
  induction toks with
  | nil => exact ⟨rfl, rfl⟩
  | cons t rest ih =>
      obtain ⟨iho, ihs⟩ := ih (fun q hq => h q (by simp [hq]))
      have htok := h t (by simp)
      rw [renderChars, flatChars, ansiOut_append, ansiSt_append]
      cases t with
      | raw txt =>
          obtain ⟨ao, as⟩ := ansi_noesc (renderTok (Tok.raw txt)).data htok
          rw [ao, as, iho, ihs]
          exact ⟨rfl, rfl⟩
      | sty code txt =>
          obtain ⟨hcode, htxt⟩ := htok
          obtain ⟨ao, as⟩ := ansi_sty code txt hcode htxt
          rw [ao, as, iho, ihs]
          exact ⟨rfl, rfl⟩

/-- C8: the readable and compact JSON sinks agree on structural content:
for the concrete two-record stream `[Bool(true), String("a,b")]` the
bytes of the readable sink, after stripping ANSI escapes and
insignificant whitespace, match the similarly whitespace-stripped
compact bytes; and, as the general contract, for every `Value` that both
sinks serialize, stripping ANSI escapes and insignificant whitespace
from the readable serialization yields exactly the whitespace-stripped
compact serialization. -/
theorem c8_readable_compact_agree :
    (writeStreamWith writeReadable [Value.bool true, Value.string ("a,b")]).map
        (fun out => stripJsonWs (stripAnsi out)) =
      (writeStreamWith writeCompact [Value.bool true, Value.string ("a,b")]).map
        stripJsonWs ∧
    ∀ (v : Value) (rs : RState) r c,
      serValue readableF v rs = .ok r → serValue compactF v () = .ok c →
      stripJsonWs (stripAnsi (render r.2)) = stripJsonWs (render c.2) := by
  constructor
  · rfl
  · intro v rs r c hr hc
    obtain ⟨hseg1, _, hseg3, _⟩ := ser_agree v rs r c hr hc
    obtain ⟨ha1, _⟩ := strip_render_toks r.2 (readable_toksOk v rs r hr)
    have hL : stripJsonWs (stripAnsi (render r.2)) = ⟨renderChars c.2⟩ := by
      rw [stripAnsi]
      rw [show (render r.2).data = renderChars r.2 from rfl, ha1]
      rw [stripJsonWs]
      rw [show (String.mk (flatChars r.2)).data = flatChars r.2 from rfl, hseg1]
    have hR : stripJsonWs (render c.2) = ⟨renderChars c.2⟩ := by
      rw [stripJsonWs]
      rw [show (render c.2).data = renderChars c.2 from rfl, hseg3]
    rw [hL, hR]

theorem c8_readable_compact_agree_witness :
    stripJsonWs (stripAnsi (render [Tok.sty trueCode ("true")])) =
      stripJsonWs (render [Tok.raw ("true")]) :=
  c8_readable_compact_agree.2 (Value.bool true) rsInit
    (rsInit, [Tok.sty trueCode ("true")]) ((), [Tok.raw ("true")]) rfl rfl

theorem serPieces_state (ps : List (Bool × String)) :
    ∀ s : RState, (serPieces readableF ps s).1 = s := by
  induction ps with
  | nil => intro s; rfl
  | cons p rest ih =>
      intro s
      obtain ⟨isE, txt⟩ := p
      cases isE <;>
        simp [serPieces, readableF_writeFragment, readableF_writeEscape,
          rWriteFragment, rWriteEscape, ih]

theorem serStr_state (str : String) (s : RState) : (serStr readableF str s).1 = s := by
  rw [serStr]
  simp only [readableF_beginString, readableF_endString]
  simp [rBeginString, rEndString, serPieces_state]

theorem serQuotedInt_state (n : Int) (s : RState) :
    (serQuotedInt readableF n s).1 = s := rfl

theorem serQuotedNat_state (n : Nat) (s : RState) :
    (serQuotedNat readableF n s).1 = s := rfl

theorem serKey_state (k : Value) :
    ∀ (s : RState) r, serKey readableF k s = .ok r → r.1 = s := by
  intro s r hk
  cases k <;> rw [serKey] at hk <;> cases hk
  all_goals first
    | exact serQuotedInt_state _ _
    | exact serQuotedNat_state _ _
    | exact serStr_state _ _

theorem serBytesLoop_indent (bs : List Nat) :
    ∀ (first : Bool) (s : RState), (serBytesLoop readableF bs first s).1.indent = s.indent := by
  induction bs with
  | nil => intro first s; rfl
  | cons b rest ih =>
      intro first s
      rw [serBytesLoop]
      simp only [readableF_beginArrayValue, readableF_writeNat, readableF_endArrayValue]
      rw [ih]
      simp [rBeginArrayValue, rWriteNat, rEndArrayValue]

/-- The readable formatter's indent depth returns to its starting value
after any balanced serialization. -/
theorem readable_indent_balanced : ∀ (v : Value) (s : RState) r,
    serValue readableF v s = .ok r → r.1.indent = s.indent := by
  apply Value.strongInd
    (P := fun v => ∀ (s : RState) r, serValue readableF v s = .ok r → r.1.indent = s.indent)
  intro v ih
  cases v with
  | unit => intro s r hr; rw [serValue] at hr; cases hr; rfl
  | bool b => intro s r hr; rw [serValue] at hr; cases hr; rfl
  | i8 n => intro s r hr; rw [serValue] at hr; cases hr; rfl
  | i16 n => intro s r hr; rw [serValue] at hr; cases hr; rfl
  | i32 n => intro s r hr; rw [serValue] at hr; cases hr; rfl
  | i64 n => intro s r hr; rw [serValue] at hr; cases hr; rfl
  | u8 n => intro s r hr; rw [serValue] at hr; cases hr; rfl
  | u16 n => intro s r hr; rw [serValue] at hr; cases hr; rfl
  | u32 n => intro s r hr; rw [serValue] at hr; cases hr; rfl
  | u64 n => intro s r hr; rw [serValue] at hr; cases hr; rfl
  | f32 bits => intro s r hr; rw [serValue] at hr; cases hr; rfl
  | f64 bits => intro s r hr; rw [serValue] at hr; cases hr; rfl
  | char ch =>
      intro s r hr
      rw [serValue] at hr
      cases hr
      rw [serStr_state]
  | string str =>
      intro s r hr
      rw [serValue] at hr
      cases hr
      rw [serStr_state]
  | bytes bs =>
      intro s r hr
      rw [serValue] at hr
      cases hr
      rw [serBytes]
      simp only [readableF_beginArray, readableF_endArray]
      simp [rBeginArray, rEndArray, serBytesLoop_indent]
  | sequence xs =>
      intro s r hr
      have hElems : ∀ x ∈ xs, ∀ (s2 : RState) r2,
          serValue readableF x s2 = .ok r2 → r2.1.indent = s2.indent := by
        intro x hx
        apply ih
        have h1 := List.sizeOf_lt_of_mem hx
        have h2 : sizeOf (Value.sequence xs) = 1 + sizeOf xs := by simp
        omega
      have hloop : ∀ (l : List Value), (∀ x ∈ l, ∀ (s2 : RState) r2,
          serValue readableF x s2 = .ok r2 → r2.1.indent = s2.indent) →
          ∀ (first : Bool) (s3 : RState) r3,
            serSeq readableF l first s3 = .ok r3 → r3.1.indent = s3.indent := by
        intro l
        induction l with
        | nil =>
            intro _ first s3 r3 h3
            rw [serSeq] at h3
            cases h3
            rfl
        | cons x rest ihl =>
            intro hel first s3 r3 h3
            rw [serSeq] at h3
            simp only [readableF_beginArrayValue] at h3
            split at h3
            · cases h3
            · rename_i sx tx hxr
              split at h3
              · cases h3
              · rename_i s4 t4 hrr
                cases h3
                have e1 := hel x (by simp) _ _ hxr
                have e2 := ihl (fun y hy => hel y (by simp [hy])) false _ _ hrr
                simp only [readableF_endArrayValue, rEndArrayValue] at e2
                simp [rBeginArrayValue] at e1
                show s4.indent = s3.indent
                omega
      rw [serValue] at hr
      simp only [readableF_beginArray, rBeginArray] at hr
      split at hr
      · cases hr
      · rename_i s2 t2 hseq
        cases hr
        have := hloop xs hElems true _ _ hseq
        simp only [readableF_endArray, rEndArray]
        simp at this ⊢
        omega
  | map kvs =>
      intro s r hr
      have hElems : ∀ p ∈ kvs, ∀ (s2 : RState) r2,
          serValue readableF p.2 s2 = .ok r2 → r2.1.indent = s2.indent := by
        intro p hp
        apply ih
        have h1 := List.sizeOf_lt_of_mem hp
        have h2 : sizeOf (Value.map kvs) = 1 + sizeOf kvs := by simp
        have h3 : sizeOf p.2 < sizeOf p := by
          obtain ⟨a, b⟩ := p
          simp
        omega
      have hloop : ∀ (l : List (Value × Value)), (∀ p ∈ l, ∀ (s2 : RState) r2,
          serValue readableF p.2 s2 = .ok r2 → r2.1.indent = s2.indent) →
          ∀ (first : Bool) (s3 : RState) r3,
            serEntries readableF l first s3 = .ok r3 → r3.1.indent = s3.indent := by
        intro l
        induction l with
        | nil =>
            intro _ first s3 r3 h3
            rw [serEntries] at h3
            cases h3
            rfl
        | cons p rest ihl =>
            obtain ⟨k, v⟩ := p
            intro hel first s3 r3 h3
            rw [serEntries] at h3
            simp only [readableF_beginObjectKey] at h3
            split at h3
            · cases h3
            · rename_i sk tk hkr
              split at h3
              · cases h3
              · rename_i sv tv hvr
                split at h3
                · cases h3
                · rename_i s7 t7 hrr
                  cases h3
                  have ek := serKey_state k _ _ hkr
                  have ev := hel (k, v) (by simp) _ _ hvr
                  have er := ihl (fun q hq => hel q (by simp [hq])) false _ _ hrr
                  simp only [readableF_endObjectKey, rEndObjectKey,
                    readableF_beginObjectValue, rBeginObjectValue,
                    readableF_endObjectValue, rEndObjectValue] at ev er
                  have ek2 : sk.indent = s3.indent := by
                    have hh : (sk, tk).1.indent = (rBeginObjectKey first s3).1.indent := by
                      rw [ek]
                    simpa [rBeginObjectKey] using hh
                  show s7.indent = s3.indent
                  omega
      rw [serValue] at hr
      simp only [readableF_beginObject, rBeginObject] at hr
      split at hr
      · cases hr
      · rename_i s2 t2 hseq
        cases hr
        have := hloop kvs hElems true _ _ hseq
        simp only [readableF_endObject, rEndObject]
        simp at this ⊢
        omega

/-- C9: the readable formatter is the state machine the spec describes —
entering an array or object increments the indent depth and clears the
has-emitted-child flag, leaving decrements the depth, completing an
element sets the flag, the closing bracket or brace is preceded by a
newline plus indentation exactly when the container emitted at least one
child, and after any balanced serialization the indent depth returns to
its starting value. -/
theorem c9_readable_state_machine :
    (∀ s : RState, (rBeginArray s).1.indent = s.indent + 1 ∧
      (rBeginArray s).1.hasValue = false) ∧
    (∀ s : RState, (rBeginObject s).1.indent = s.indent + 1 ∧
      (rBeginObject s).1.hasValue = false) ∧
    (∀ s : RState, (rEndArray s).1.indent = s.indent - 1) ∧
    (∀ s : RState, (rEndObject s).1.indent = s.indent - 1) ∧
    (∀ s : RState, (rEndArrayValue s).1.hasValue = true) ∧
    (∀ s : RState, (rEndObjectValue s).1.hasValue = true) ∧
    (∀ s : RState, s.hasValue = true → (rEndArray s).2 =
      [Tok.raw (("\n") ++ indentStr (s.indent - 1)), Tok.sty boldCode ("]")]) ∧
    (∀ s : RState, s.hasValue = false → (rEndArray s).2 = [Tok.sty boldCode ("]")]) ∧
    (∀ s : RState, s.hasValue = true → (rEndObject s).2 =
      [Tok.raw (("\n") ++ indentStr (s.indent - 1)), Tok.sty boldCode ("\x7d")]) ∧
    (∀ s : RState, s.hasValue = false → (rEndObject s).2 = [Tok.sty boldCode ("\x7d")]) ∧
    (∀ (v : Value) (s : RState) r, serValue readableF v s = .ok r →
      r.1.indent = s.indent) := by
  refine ⟨fun s => ⟨rfl, rfl⟩, fun s => ⟨rfl, rfl⟩, fun s => rfl, fun s => rfl,
    fun s => rfl, fun s => rfl, ?_, ?_, ?_, ?_, readable_indent_balanced⟩
  · intro s h
    simp [rEndArray, h]
  · intro s h
    simp [rEndArray, h]
  · intro s h
    simp [rEndObject, h]
  · intro s h
    simp [rEndObject, h]

theorem c9_readable_state_machine_witness :
    (rsInit.hasValue = false ∧ (rEndArray rsInit).2 = [Tok.sty boldCode ("]")]) ∧
    serValue readableF (Value.sequence []) rsInit =
      .ok (⟨0, false, false⟩, [Tok.sty boldCode ("["), Tok.sty boldCode ("]")]) ∧
    (⟨0, false, false⟩ : RState).indent = rsInit.indent :=
  ⟨⟨rfl, c9_readable_state_machine.2.2.2.2.2.2.2.1 rsInit rfl⟩, rfl,
    c9_readable_state_machine.2.2.2.2.2.2.2.2.2.2 (Value.sequence []) rsInit
      (⟨0, false, false⟩, [Tok.sty boldCode ("["), Tok.sty boldCode ("]")]) rfl⟩

/-- The serialized body of a record ends in a byte that is not a
newline (and is nonempty). -/
def EndsOk (l : List Char) : Prop := l ≠ [] ∧ l.getLast? ≠ some '\n'

theorem endsOk_append (a b : List Char) (hb : EndsOk b) : EndsOk (a ++ b) := by
  obtain ⟨hne, hl⟩ := hb
  constructor
  · simp [hne]
  · rw [List.getLast?_append_of_ne_nil _ hne]
    exact hl

theorem endsOk_chars (l : List Char) (hne : l ≠ []) (h : ∀ c ∈ l, c ≠ '\n') :
    EndsOk l := by
  refine ⟨hne, ?_⟩
  intro hc
  exact (h _ (getLast?_mem_of_eq hc)) rfl

theorem intRepr_endsOk (n : Int) : EndsOk (intRepr n).data :=
  endsOk_chars _ (intRepr_spec n).1 (fun c hc =>
    (by decide : ∀ d ∈ '-' :: digitChars, d ≠ '\n') c ((intRepr_spec n).2 c hc))

theorem natRepr_endsOk (n : Nat) : EndsOk (natRepr n).data :=
  endsOk_chars _ (natRepr_spec n).1 (fun c hc =>
    (by decide : ∀ d ∈ '-' :: digitChars, d ≠ '\n') c
      (List.mem_cons_of_mem _ ((natRepr_spec n).2 c hc)))

theorem sty_endsOk (code txt : String) : EndsOk (renderTok (Tok.sty code txt)).data := by
  have hdata : (renderTok (Tok.sty code txt)).data =
      (((("\x1b[" : String) ++ code) ++ ("m")) ++ txt).data ++ ("\x1b[0m" : String).data :=
    String.data_append _ _
  rw [hdata]
  exact endsOk_append _ _ ⟨by decide, by decide⟩

theorem serStr_chars_pretty (str : String) (s : PState) :
    renderChars ((serStr prettyF str s).2) =
      '"' :: piecesChars (strPieces str.data) ++ ['"'] := by
  show renderChars ((serStr prettyF str s).2) =
    '"' :: (piecesChars (strPieces str.data) ++ ['"'])
  rw [serStr]
  simp only [prettyF_beginString, prettyF_endString]
  rw [renderChars_append, renderChars_append]
  have hps : ∀ ps (s2 : PState), renderChars ((serPieces prettyF ps s2).2) = piecesChars ps := by
    intro ps
    induction ps with
    | nil => intro s2; rfl
    | cons p rest ih =>
        intro s2
        obtain ⟨isE, txt⟩ := p
        cases isE <;>
          simp [serPieces, prettyF_writeFragment, prettyF_writeEscape, renderChars,
            renderChars_append, renderTok, piecesChars, ih]
  rw [hps]
  simp [renderChars, renderTok]

theorem quoted_endsOk (body : List Char) : EndsOk ('"' :: body ++ ['"']) := by
  show EndsOk ('"' :: (body ++ ['"']))
  rw [← List.cons_append]
  exact endsOk_append _ _ ⟨by decide, by decide⟩

theorem compact_endsOk : ∀ (v : Value) (s : Unit) r,
    serValue compactF v s = .ok r → EndsOk (renderChars r.2) := by
  intro v s r hr
  cases v with
  | unit =>
      rw [serValue] at hr
      cases hr
      show EndsOk (renderChars [Tok.raw ("null")])
      exact ⟨by decide, by decide⟩
  | bool b =>
      rw [serValue] at hr
      cases hr
      cases b
      · show EndsOk (renderChars [Tok.raw ("false")])
        exact ⟨by decide, by decide⟩
      · show EndsOk (renderChars [Tok.raw ("true")])
        exact ⟨by decide, by decide⟩
  | i8 n =>
      rw [serValue] at hr
      cases hr
      show EndsOk ((intRepr n).data ++ [])
      rw [List.append_nil]
      exact intRepr_endsOk n
  | i16 n =>
      rw [serValue] at hr
      cases hr
      show EndsOk ((intRepr n).data ++ [])
      rw [List.append_nil]
      exact intRepr_endsOk n
  | i32 n =>
      rw [serValue] at hr
      cases hr
      show EndsOk ((intRepr n).data ++ [])
      rw [List.append_nil]
      exact intRepr_endsOk n
  | i64 n =>
      rw [serValue] at hr
      cases hr
      show EndsOk ((intRepr n).data ++ [])
      rw [List.append_nil]
      exact intRepr_endsOk n
  | u8 n =>
      rw [serValue] at hr
      cases hr
      show EndsOk ((natRepr n).data ++ [])
      rw [List.append_nil]
      exact natRepr_endsOk n
  | u16 n =>
      rw [serValue] at hr
      cases hr
      show EndsOk ((natRepr n).data ++ [])
      rw [List.append_nil]
      exact natRepr_endsOk n
  | u32 n =>
      rw [serValue] at hr
      cases hr
      show EndsOk ((natRepr n).data ++ [])
      rw [List.append_nil]
      exact natRepr_endsOk n
  | u64 n =>
      rw [serValue] at hr
      cases hr
      show EndsOk ((natRepr n).data ++ [])
      rw [List.append_nil]
      exact natRepr_endsOk n
  | f32 bits =>
      rw [serValue] at hr
      cases hr
      show EndsOk ((natRepr bits).data ++ [])
      rw [List.append_nil]
      exact natRepr_endsOk bits
  | f64 bits =>
      rw [serValue] at hr
      cases hr
      show EndsOk ((natRepr bits).data ++ [])
      rw [List.append_nil]
      exact natRepr_endsOk bits
  | char ch =>
      rw [serValue] at hr
      cases hr
      rw [serStr_chars_compact]
      exact quoted_endsOk _
  | string str =>
      rw [serValue] at hr
      cases hr
      rw [serStr_chars_compact]
      exact quoted_endsOk _
  | bytes bs =>
      rw [serValue] at hr
      cases hr
      rw [serBytes]
      simp only [compactF_beginArray, compactF_endArray]
      rw [renderChars_append, renderChars_append]
      refine endsOk_append _ _ ?_
      show EndsOk (renderChars [Tok.raw ("]")])
      exact ⟨by decide, by decide⟩
  | sequence xs =>
      rw [serValue] at hr
      simp only [compactF_beginArray] at hr
      split at hr
      · cases hr
      · rename_i s2 t2 hseq
        cases hr
        simp only [compactF_endArray]
        rw [renderChars_append, renderChars_append]
        refine endsOk_append _ _ ?_
        show EndsOk (renderChars [Tok.raw ("]")])
        exact ⟨by decide, by decide⟩
  | map kvs =>
      rw [serValue] at hr
      simp only [compactF_beginObject] at hr
      split at hr
      · cases hr
      · rename_i s2 t2 hseq
        cases hr
        simp only [compactF_endObject]
        rw [renderChars_append, renderChars_append]
        refine endsOk_append _ _ ?_
        show EndsOk (renderChars [Tok.raw ("\x7d")])
        exact ⟨by decide, by decide⟩

theorem pretty_endArray_endsOk (s2 : PState) :
    EndsOk (renderChars (prettyF.endArray s2).2) := by
  rw [prettyF_endArray]
  rw [renderChars_append]
  exact endsOk_append _ _ ⟨by decide, by decide⟩

theorem pretty_endObject_endsOk (s2 : PState) :
    EndsOk (renderChars (prettyF.endObject s2).2) := by
  rw [prettyF_endObject]
  rw [renderChars_append]
  exact endsOk_append _ _ ⟨by decide, by decide⟩

theorem pretty_endsOk : ∀ (v : Value) (s : PState) r,
    serValue prettyF v s = .ok r → EndsOk (renderChars r.2) := by
  intro v s r hr
  cases v with
  | unit =>
      rw [serValue] at hr
      cases hr
      show EndsOk (renderChars [Tok.raw ("null")])
      exact ⟨by decide, by decide⟩
  | bool b =>
      rw [serValue] at hr
      cases hr
      cases b
      · show EndsOk (renderChars [Tok.raw ("false")])
        exact ⟨by decide, by decide⟩
      · show EndsOk (renderChars [Tok.raw ("true")])
        exact ⟨by decide, by decide⟩
  | i8 n =>
      rw [serValue] at hr
      cases hr
      show EndsOk ((intRepr n).data ++ [])
      rw [List.append_nil]
      exact intRepr_endsOk n
  | i16 n =>
      rw [serValue] at hr
      cases hr
      show EndsOk ((intRepr n).data ++ [])
      rw [List.append_nil]
      exact intRepr_endsOk n
  | i32 n =>
      rw [serValue] at hr
      cases hr
      show EndsOk ((intRepr n).data ++ [])
      rw [List.append_nil]
      exact intRepr_endsOk n
  | i64 n =>
      rw [serValue] at hr
      cases hr
      show EndsOk ((intRepr n).data ++ [])
      rw [List.append_nil]
      exact intRepr_endsOk n
  | u8 n =>
      rw [serValue] at hr
      cases hr
      show EndsOk ((natRepr n).data ++ [])
      rw [List.append_nil]
      exact natRepr_endsOk n
  | u16 n =>
      rw [serValue] at hr
      cases hr
      show EndsOk ((natRepr n).data ++ [])
      rw [List.append_nil]
      exact natRepr_endsOk n
  | u32 n =>
      rw [serValue] at hr
      cases hr
      show EndsOk ((natRepr n).data ++ [])
      rw [List.append_nil]
      exact natRepr_endsOk n
  | u64 n =>
      rw [serValue] at hr
      cases hr
      show EndsOk ((natRepr n).data ++ [])
      rw [List.append_nil]
      exact natRepr_endsOk n
  | f32 bits =>
      rw [serValue] at hr
      cases hr
      show EndsOk ((natRepr bits).data ++ [])
      rw [List.append_nil]
      exact natRepr_endsOk bits
  | f64 bits =>
      rw [serValue] at hr
      cases hr
      show EndsOk ((natRepr bits).data ++ [])
      rw [List.append_nil]
      exact natRepr_endsOk bits
  | char ch =>
      rw [serValue] at hr
      cases hr
      rw [serStr_chars_pretty]
      exact quoted_endsOk _
  | string str =>
      rw [serValue] at hr
      cases hr
      rw [serStr_chars_pretty]
      exact quoted_endsOk _
  | bytes bs =>
      rw [serValue] at hr
      cases hr
      rw [serBytes]
      rw [renderChars_append]
      exact endsOk_append _ _ (pretty_endArray_endsOk _)
  | sequence xs =>
      rw [serValue] at hr
      split at hr
      · cases hr
      · rename_i s2 t2 hseq
        cases hr
        rw [renderChars_append]
        exact endsOk_append _ _ (pretty_endArray_endsOk _)
  | map kvs =>
      rw [serValue] at hr
      split at hr
      · cases hr
      · rename_i s2 t2 hseq
        cases hr
        rw [renderChars_append]
        exact endsOk_append _ _ (pretty_endObject_endsOk _)

theorem rEndString_toks (s : RState) :
    (rEndString s).2 = [Tok.sty (if s.inKey then keyQuoteCode else quoteCode) ("\"")] := rfl

theorem readable_endArray_endsOk (s2 : RState) :
    EndsOk (renderChars (readableF.endArray s2).2) := by
  rw [readableF_endArray]
  rw [show (rEndArray s2).2 =
      (if s2.hasValue then [Tok.raw (("\n") ++ indentStr (s2.indent - 1))] else []) ++
        [Tok.sty boldCode ("]")] from rfl]
  rw [renderChars_append]
  refine endsOk_append _ _ ?_
  rw [renderChars_single]
  exact sty_endsOk _ _

theorem readable_endObject_endsOk (s2 : RState) :
    EndsOk (renderChars (readableF.endObject s2).2) := by
  rw [readableF_endObject]
  rw [show (rEndObject s2).2 =
      (if s2.hasValue then [Tok.raw (("\n") ++ indentStr (s2.indent - 1))] else []) ++
        [Tok.sty boldCode ("\x7d")] from rfl]
  rw [renderChars_append]
  refine endsOk_append _ _ ?_
  rw [renderChars_single]
  exact sty_endsOk _ _

theorem serStr_readable_endsOk (str : String) (s : RState) :
    EndsOk (renderChars (serStr readableF str s).2) := by
  rw [serStr]
  simp only [readableF_beginString, readableF_endString]
  rw [renderChars_append]
  refine endsOk_append _ _ ?_
  rw [rEndString_toks, renderChars_single]
  exact sty_endsOk _ _

theorem readable_endsOk : ∀ (v : Value) (s : RState) r,
    serValue readableF v s = .ok r → EndsOk (renderChars r.2) := by
  intro v s r hr
  cases v with
  | unit =>
      rw [serValue] at hr
      cases hr
      show EndsOk (renderChars [Tok.sty nullCode ("null")])
      rw [renderChars_single]
      exact sty_endsOk _ _
  | bool b =>
      rw [serValue] at hr
      cases hr
      show EndsOk (renderChars
        [Tok.sty (if b then trueCode else falseCode) (if b then ("true") else ("false"))])
      rw [renderChars_single]
      exact sty_endsOk _ _
  | i8 n =>
      rw [serValue] at hr
      cases hr
      show EndsOk (renderChars [Tok.sty numberCode (intRepr n)])
      rw [renderChars_single]
      exact sty_endsOk _ _
  | i16 n =>
      rw [serValue] at hr
      cases hr
      show EndsOk (renderChars [Tok.sty numberCode (intRepr n)])
      rw [renderChars_single]
      exact sty_endsOk _ _
  | i32 n =>
      rw [serValue] at hr
      cases hr
      show EndsOk (renderChars [Tok.sty numberCode (intRepr n)])
      rw [renderChars_single]
      exact sty_endsOk _ _
  | i64 n =>
      rw [serValue] at hr
      cases hr
      show EndsOk (renderChars [Tok.sty numberCode (intRepr n)])
      rw [renderChars_single]
      exact sty_endsOk _ _
  | u8 n =>
      rw [serValue] at hr
      cases hr
      show EndsOk (renderChars [Tok.sty numberCode (natRepr n)])
      rw [renderChars_single]
      exact sty_endsOk _ _
  | u16 n =>
      rw [serValue] at hr
      cases hr
      show EndsOk (renderChars [Tok.sty numberCode (natRepr n)])
      rw [renderChars_single]
      exact sty_endsOk _ _
  | u32 n =>
      rw [serValue] at hr
      cases hr
      show EndsOk (renderChars [Tok.sty numberCode (natRepr n)])
      rw [renderChars_single]
      exact sty_endsOk _ _
  | u64 n =>
      rw [serValue] at hr
      cases hr
      show EndsOk (renderChars [Tok.sty numberCode (natRepr n)])
      rw [renderChars_single]
      exact sty_endsOk _ _
  | f32 bits =>
      rw [serValue] at hr
      cases hr
      show EndsOk (renderChars [Tok.sty numberCode (natRepr bits)])
      rw [renderChars_single]
      exact sty_endsOk _ _
  | f64 bits =>
      rw [serValue] at hr
      cases hr
      show EndsOk (renderChars [Tok.sty numberCode (natRepr bits)])
      rw [renderChars_single]
      exact sty_endsOk _ _
  | char ch =>
      rw [serValue] at hr
      cases hr
      exact serStr_readable_endsOk _ _
  | string str =>
      rw [serValue] at hr
      cases hr
      exact serStr_readable_endsOk _ _
  | bytes bs =>
      rw [serValue] at hr
      cases hr
      rw [serBytes]
      rw [renderChars_append]
      exact endsOk_append _ _ (readable_endArray_endsOk _)
  | sequence xs =>
      rw [serValue] at hr
      split at hr
      · cases hr
      · rename_i s2 t2 hseq
        cases hr
        rw [renderChars_append]
        exact endsOk_append _ _ (readable_endArray_endsOk _)
  | map kvs =>
      rw [serValue] at hr
      split at hr
      · cases hr
      · rename_i s2 t2 hseq
        cases hr
        rw [renderChars_append]
        exact endsOk_append _ _ (readable_endObject_endsOk _)

/-- C7: a successful `write(v)` of every JSON sink variant (compact,
indented, readable) emits the serialized form of `v` followed by exactly
one trailing newline — the output is the serialized body plus a newline
byte, and the body itself is nonempty and does not end in a newline. -/
theorem c7_trailing_newline :
    (∀ (v : Value) out, writeCompact v = .ok out → ∃ body, compactSer v = .ok body ∧
      out = body ++ "\n" ∧ body ≠ "" ∧ body.data.getLast? ≠ some '\n') ∧
    (∀ (v : Value) out, writePretty v = .ok out → ∃ body, prettySer v = .ok body ∧
      out = body ++ "\n" ∧ body ≠ "" ∧ body.data.getLast? ≠ some '\n') ∧
    (∀ (v : Value) out, writeReadable v = .ok out → ∃ body, readableSer v = .ok body ∧
      out = body ++ "\n" ∧ body ≠ "" ∧ body.data.getLast? ≠ some '\n') := by
  refine ⟨?_, ?_, ?_⟩
  · intro v out h
    rw [writeCompact] at h
    split at h
    · cases h
    · rename_i body heq
      cases h
      refine ⟨body, heq, rfl, ?_, ?_⟩
      · rw [compactSer] at heq
        split at heq
        · cases heq
        · rename_i u toks hser
          cases heq
          intro hbody
          have hd : (render toks).data = [] := by rw [hbody]
          exact absurd hd (compact_endsOk v () (u, toks) hser).1
      · rw [compactSer] at heq
        split at heq
        · cases heq
        · rename_i u toks hser
          cases heq
          exact (compact_endsOk v () (u, toks) hser).2
  · intro v out h
    rw [writePretty] at h
    split at h
    · cases h
    · rename_i body heq
      cases h
      refine ⟨body, heq, rfl, ?_, ?_⟩
      · rw [prettySer] at heq
        split at heq
        · cases heq
        · rename_i u toks hser
          cases heq
          intro hbody
          have hd : (render toks).data = [] := by rw [hbody]
          exact absurd hd (pretty_endsOk v psInit (u, toks) hser).1
      · rw [prettySer] at heq
        split at heq
        · cases heq
        · rename_i u toks hser
          cases heq
          exact (pretty_endsOk v psInit (u, toks) hser).2
  · intro v out h
    rw [writeReadable] at h
    split at h
    · cases h
    · rename_i body heq
      cases h
      refine ⟨body, heq, rfl, ?_, ?_⟩
      · rw [readableSer] at heq
        split at heq
        · cases heq
        · rename_i u toks hser
          cases heq
          intro hbody
          have hd : (render toks).data = [] := by rw [hbody]
          exact absurd hd (readable_endsOk v rsInit (u, toks) hser).1
      · rw [readableSer] at heq
        split at heq
        · cases heq
        · rename_i u toks hser
          cases heq
          exact (readable_endsOk v rsInit (u, toks) hser).2

theorem c7_trailing_newline_witness :
    (∃ body, compactSer (.unit) = .ok body ∧ ("null\n" : String) = body ++ "\n" ∧
      body ≠ "" ∧ body.data.getLast? ≠ some '\n') ∧
    (∃ body, prettySer (.unit) = .ok body ∧ ("null\n" : String) = body ++ "\n" ∧
      body ≠ "" ∧ body.data.getLast? ≠ some '\n') ∧
    (∃ body, readableSer (.unit) = .ok body ∧
      ("\x1b[1;2;3;30mnull\x1b[0m\n" : String) = body ++ "\n" ∧
      body ≠ "" ∧ body.data.getLast? ≠ some '\n') :=
  ⟨c7_trailing_newline.1 (.unit) _ rfl, c7_trailing_newline.2.1 (.unit) _ rfl,
    c7_trailing_newline.2.2 (.unit) _ rfl⟩

end Rq
